import Mathlib

/-!
Verification development for the tic-tac-toe game with gift collection and
promotional codes (`game_crnull`).

The repository ships the browser client (`apps/web/src`) and documentation;
the FastAPI backend that owns the board engine, the opponent policy, the
session state machine and the reward-issuance engine is not part of the
source tree.  Those server components are therefore modelled from the
specification (each such definition carries a doc comment starting with
`Modelled from the spec:`), while the client-side behaviour (gift handling
in `gifts.ts`, request guards and board rendering in `GamePage`, the API
client in `client.ts`) is embedded directly from the TypeScript source.
-/

set_option maxRecDepth 20000
set_option maxHeartbeats 4000000

/-- Player / opponent marks.  The player is `X`, the computer opponent is `O`. -/
inductive Mark where
  | X
  | O
deriving DecidableEq, Repr

/-- Modelled from the spec: a board is an ordered sequence of 9 cells, each
holding one of {empty, player-mark, opponent-mark} (§3).  Empty is `none`. -/
abbrev Board := List (Option Mark)

/-- The empty board a freshly created session starts with. -/
def emptyBoard : Board :=
  [none, none, none, none, none, none, none, none, none]

/-- Cell `i` of a board (row-major order 0–8). -/
def cellAt (b : Board) (i : Nat) : Option Mark :=
  b.getD i none

/-- Boolean test that a cell holds the given mark. -/
def isM (m : Mark) : Option Mark → Bool
  | some .X => match m with | .X => true | .O => false
  | some .O => match m with | .X => false | .O => true
  | none => false

/-- Boolean test that a cell is empty. -/
def isE : Option Mark → Bool
  | none => true
  | some _ => false

/-- One winning line: cells `i`, `j`, `k` all hold mark `m`. -/
def lineFor (m : Mark) (b : Board) (i j k : Nat) : Bool :=
  isM m (cellAt b i) && isM m (cellAt b j) && isM m (cellAt b k)

/-- Modelled from the spec: the 8 winning lines — 3 rows, 3 columns,
2 diagonals (§4.1). -/
def hasLine (m : Mark) (b : Board) : Bool :=
  lineFor m b 0 1 2 || lineFor m b 3 4 5 || lineFor m b 6 7 8 ||
  lineFor m b 0 3 6 || lineFor m b 1 4 7 || lineFor m b 2 5 8 ||
  lineFor m b 0 4 8 || lineFor m b 2 4 6

/-- All 9 cells are filled. -/
def isFull (b : Board) : Bool :=
  b.all fun c => !(isE c)

/-- Result of evaluating a board (§4.1). -/
inductive Outcome where
  | inProgress
  | win (m : Mark)
  | draw
deriving DecidableEq, Repr

/-- Modelled from the spec: `evaluate(board)` checks all 8 winning lines; a
board with one complete line for a mark is a win for that mark; if all 9
cells are filled with no winning line it is a draw; otherwise in progress
(§4.1). -/
def evaluate (b : Board) : Outcome :=
  if hasLine .X b then .win .X
  else if hasLine .O b then .win .O
  else if isFull b then .draw
  else .inProgress

/-- Modelled from the spec: the error taxonomy of §7. -/
inductive GameError where
  | InvalidSession
  | IllegalMove
  | GameAlreadyOver
  | AlreadyIssued
  | DailyLimitExceeded
  | NoLegalMove
deriving DecidableEq, Repr

/-- Board after writing mark `m` into cell `c`. -/
def setCell (b : Board) (c : Nat) (m : Mark) : Board :=
  b.set c (some m)

/-- Modelled from the spec: `apply(board, cell, mark)` fails with
`IllegalMove` if `cell` is out of the 0–8 range or already occupied, or if
the game is already terminal (§4.1). -/
def applyMove (b : Board) (cell : Nat) (m : Mark) : Except GameError Board :=
  if 9 ≤ cell then .error .IllegalMove
  else if !(isE (cellAt b cell)) then .error .IllegalMove
  else if evaluate b ≠ .inProgress then .error .IllegalMove
  else .ok (setCell b cell m)

/-- The fixed preference order over cells used by the optimal tier to break
ties: center (4), then corners (0, 2, 6, 8), then edges (1, 3, 5, 7). -/
def prefOrder : List Nat := [4, 0, 2, 6, 8, 1, 3, 5, 7]

/-- The empty cells of a board, listed in the tie-breaking preference order. -/
def emptiesPref (b : Board) : List Nat :=
  prefOrder.filter fun c => isE (cellAt b c)

/-- Number of empty cells of a (length-9) board. -/
def countEmpties (b : Board) : Nat :=
  (emptiesPref b).length

/-- Maximising fold for the player `X`'s choices: the game value 2 means an
`X` win, 1 a draw, 0 an `O` win; `X` maximises and the fold stops early once
an immediate best value 2 is found. -/
def maxFold (valf : Board → Nat) (b : Board) : List Nat → Nat
  | [] => 0
  | c :: cs =>
    let v := valf (setCell b c .X)
    if v = 2 then 2 else max v (maxFold valf b cs)

/-- Minimising scan for the opponent `O`'s choices: returns the best
(smallest) game value together with the first cell, in preference order,
attaining it; stops early once the best possible value 0 is found. -/
def bestO (valf : Board → Nat) (b : Board) : List Nat → Option (Nat × Nat)
  | [] => none
  | c :: cs =>
    let v := valf (setCell b c .O)
    if v = 0 then some (v, c)
    else
      match bestO valf b cs with
      | none => some (v, c)
      | some (bv, bc) => if v ≤ bv then some (v, c) else some (bv, bc)

/-- Modelled from the spec: game-theoretic value of a board via exhaustive
look-ahead over the remaining game tree, at most 9 plies on an empty board
(§4.2, optimal tier).  Value 2 = `X` (player) can force a win, 0 = `O`
(opponent) can force a win, 1 = draw with best play.  `fuel` bounds the
look-ahead depth; it is always instantiated with the number of empty cells,
which makes the look-ahead exhaustive. -/
def val : Nat → Mark → Board → Nat
  | 0, _, b =>
    match evaluate b with
    | .win .X => 2
    | .win .O => 0
    | .draw => 1
    | .inProgress => 1
  | f + 1, t, b =>
    match evaluate b with
    | .win .X => 2
    | .win .O => 0
    | .draw => 1
    | .inProgress =>
      match t with
      | .X => maxFold (val f .O) b (emptiesPref b)
      | .O =>
        match bestO (val f .X) b (emptiesPref b) with
        | some p => p.1
        | none => 2

/-- Modelled from the spec: the optimal tier's `select(board)` — computes the
game-theoretically best move by exhaustive look-ahead, ties among equally
optimal moves broken by the fixed preference order center > corners > edges;
fails with `NoLegalMove` on a full or terminal board (§4.2). -/
def selectOptimal (b : Board) : Except GameError Nat :=
  if evaluate b ≠ .inProgress then .error .NoLegalMove
  else
    match bestO (val (countEmpties b - 1) .X) b (emptiesPref b) with
    | some p => .ok p.2
    | none => .error .NoLegalMove

/-- Game value, after `O` answers in cell `c`, seen from board `b` with `O`
to move: the quantity `selectOptimal` minimises. -/
def childVal (b : Board) (c : Nat) : Nat :=
  val (countEmpties b - 1) .X (setCell b c .O)

/-- Pruned safety search used to certify the optimal opponent: `true` means
that, with `t` to move and `O` following some strategy, `X` never completes
a line.  At `X` nodes every move must stay safe; at `O` nodes one safe reply
suffices (tried in preference order). -/
def safe : Nat → Mark → Board → Bool
  | 0, _, b =>
    match evaluate b with
    | .win .X => false
    | _ => true
  | f + 1, t, b =>
    match evaluate b with
    | .win .X => false
    | .win .O => true
    | .draw => true
    | .inProgress =>
      match t with
      | .X => (emptiesPref b).all fun c => safe f .O (setCell b c .X)
      | .O => (emptiesPref b).any fun c => safe f .X (setCell b c .O)

/-- Bitboard encoding of the cells holding mark `m`: bit `i` of the result is
set iff cell `i` of the board holds `m`. -/
def maskOf (m : Mark) : Board → Nat
  | [] => 0
  | c :: rest => (if isM m c then 1 else 0) + 2 * maskOf m rest

/-- Bitmask of one winning line. -/
def lineMask (i j k : Nat) : Nat :=
  (1 <<< i) ||| (1 <<< j) ||| (1 <<< k)

/-- Bitboard version of `hasLine`: the mask contains one of the 8 winning
lines. -/
def mWin (x : Nat) : Bool :=
  (x &&& lineMask 0 1 2 == lineMask 0 1 2) ||
  (x &&& lineMask 3 4 5 == lineMask 3 4 5) ||
  (x &&& lineMask 6 7 8 == lineMask 6 7 8) ||
  (x &&& lineMask 0 3 6 == lineMask 0 3 6) ||
  (x &&& lineMask 1 4 7 == lineMask 1 4 7) ||
  (x &&& lineMask 2 5 8 == lineMask 2 5 8) ||
  (x &&& lineMask 0 4 8 == lineMask 0 4 8) ||
  (x &&& lineMask 2 4 6 == lineMask 2 4 6)

/-- Bitboard version of `emptiesPref`: the cells whose bit is clear in both
masks, in the tie-breaking preference order. -/
def emptiesM (x o : Nat) : List Nat :=
  prefOrder.filter fun c => ((x ||| o) >>> c) &&& 1 == 0

/-- Bitboard version of the pruned safety search `safe`, cheap enough for the
kernel to evaluate at the initial position; `x` and `o` are the masks of the
two players' cells. -/
def safeM : Nat → Mark → Nat → Nat → Bool
  | 0, _, x, _ => if mWin x then false else true
  | f + 1, t, x, o =>
    if mWin x then false
    else if mWin o then true
    else if (x ||| o) == 511 then true
    else
      match t with
      | .X => (emptiesM x o).all fun c => safeM f .O (x ||| (1 <<< c)) o
      | .O => (emptiesM x o).any fun c => safeM f .X x (o ||| (1 <<< c))

/-- Session status (§4.3): `IN_PROGRESS` with terminal states `WIN`, `LOSE`,
`DRAW`; the same four literals travel over the wire (`client.ts`,
`GameStatus`). -/
inductive Status where
  | IN_PROGRESS
  | WIN
  | LOSE
  | DRAW
deriving DecidableEq, Repr

/-- Modelled from the spec: one match's state as owned by the Session State
Machine — board snapshot and status (§3, §4.3).  The difficulty tier fixed
at creation is represented by the policy function passed to
`applyPlayerMove`. -/
structure Session where
  board : Board
  status : Status
deriving DecidableEq, Repr

/-- Modelled from the spec: `create` gives an empty board in `IN_PROGRESS`
status (§4.3); this is the session as created with the optimal tier. -/
def createSession : Session :=
  ⟨emptyBoard, .IN_PROGRESS⟩

/-- Modelled from the spec: `applyPlayerMove` (§4.3) — fails with
`GameAlreadyOver` when the status is not `IN_PROGRESS`; delegates to the
board engine `applyMove` with the player's mark, propagating `IllegalMove`;
if the board is then terminal (player win or draw) it transitions the status
and returns without an opponent move; otherwise the opponent policy selects
a cell, the opponent's mark is applied, and the board is re-evaluated —
opponent win gives `LOSE`, a full board `DRAW`, otherwise the session stays
`IN_PROGRESS`. -/
def applyPlayerMove (policy : Board → Except GameError Nat) (s : Session)
    (cell : Nat) : Except GameError Session :=
  if s.status ≠ .IN_PROGRESS then .error .GameAlreadyOver
  else
    match applyMove s.board cell .X with
    | .error e => .error e
    | .ok b1 =>
      match evaluate b1 with
      | .win .X => .ok ⟨b1, .WIN⟩
      | .draw => .ok ⟨b1, .DRAW⟩
      | _ =>
        match policy b1 with
        | .error e => .error e
        | .ok oc =>
          match applyMove b1 oc .O with
          | .error e => .error e
          | .ok b2 =>
            match evaluate b2 with
            | .win .O => .ok ⟨b2, .LOSE⟩
            | .draw => .ok ⟨b2, .DRAW⟩
            | _ => .ok ⟨b2, .IN_PROGRESS⟩

/-- One step of play against the optimal opponent; a rejected move leaves
the session unchanged (errors are surfaced to the caller, the session state
is not modified). -/
def stepOptimal (s : Session) (cell : Nat) : Session :=
  match applyPlayerMove selectOptimal s cell with
  | .ok s1 => s1
  | .error _ => s

/-- Running an arbitrary sequence of player move requests against a fresh
optimal-tier session. -/
def playMoves (moves : List Nat) : Session :=
  moves.foldl stepOptimal createSession

/-- Sessions reachable through the state machine: created fresh, then any
number of accepted `applyPlayerMove` steps under any opponent policy. -/
inductive SessionReachable : Session → Prop where
  | create : SessionReachable createSession
  | step (policy : Board → Except GameError Nat) (s s1 : Session) (cell : Nat) :
      SessionReachable s → applyPlayerMove policy s cell = .ok s1 →
      SessionReachable s1

/-- Boards reachable through legal play: starting from the empty board, marks
are only added into empty cells of boards that are still in progress. -/
inductive ReachableB : Board → Prop where
  | empty : ReachableB emptyBoard
  | step (b : Board) (c : Nat) (m : Mark) :
      ReachableB b → evaluate b = .inProgress → c < 9 →
      isE (cellAt b c) = true → ReachableB (setCell b c m)

/-- Modelled from the spec: the two qualifying events per session, each
grantable at most once — game win and gift win (§4.4). -/
inductive Reason where
  | gameWin
  | giftWin
deriving DecidableEq, Repr

/-- Modelled from the spec: a promotional code — generated code, creation
timestamp, expiry timestamp (creation + configured TTL) and the issuing
session/reason (§3).  Codes are modelled as naturals drawn from a counter,
which keeps them unique; the entropy and collision-regeneration of the real
generator are not modelled. -/
structure PromoCode where
  code : Nat
  createdAt : Nat
  expiresAt : Nat
  session : Nat
  reason : Reason
deriving DecidableEq, Repr

/-- Modelled from the spec: the settings read by the engines — code lifetime
`promo_ttl_hours` and daily issuance cap `promo_daily_limit`, where 0 means
unlimited (§3, `AdminSettings` in `client.ts`). -/
structure Settings where
  promo_ttl_hours : Nat
  promo_daily_limit : Nat
deriving DecidableEq, Repr

/-- Modelled from the spec: state of the Reward Issuance Engine — known
session ids, issued codes, the code counter, and the Daily Issuance Counter
with the calendar day it counts for (§3, §4.4). -/
structure EngineState where
  sessions : List Nat
  promos : List PromoCode
  nextCode : Nat
  dayCount : Nat
  curDay : Nat
deriving DecidableEq, Repr

/-- The stored promos of a given session and reason. -/
def promosFor (st : EngineState) (sid : Nat) (r : Reason) : List PromoCode :=
  st.promos.filter fun p => p.session = sid ∧ p.reason = r

/-- Roll the Daily Issuance Counter over to the current calendar day. -/
def rollDay (st : EngineState) (day : Nat) : EngineState :=
  if st.curDay = day then st else { st with curDay := day, dayCount := 0 }

/-- Modelled from the spec: `issue(session, reason)` (§4.4) — fails with
`AlreadyIssued` if this session already holds a code for this reason; fails
with `DailyLimitExceeded` if `promo_daily_limit > 0` and the Daily Issuance
Counter has reached that value for the current day; otherwise generates a
code, sets expiry to now + TTL, persists it, and increments the counter.
On failure the state is returned unchanged apart from the day rollover. -/
def issue (cfg : Settings) (st0 : EngineState) (sid : Nat) (r : Reason)
    (now day : Nat) : Except GameError PromoCode × EngineState :=
  let st := rollDay st0 day
  if (promosFor st sid r) ≠ [] then (.error .AlreadyIssued, st)
  else if 0 < cfg.promo_daily_limit ∧ cfg.promo_daily_limit ≤ st.dayCount then
    (.error .DailyLimitExceeded, st)
  else
    let pc : PromoCode := ⟨st.nextCode, now, now + cfg.promo_ttl_hours, sid, r⟩
    (.ok pc, { st with promos := pc :: st.promos, nextCode := st.nextCode + 1,
                       dayCount := st.dayCount + 1 })

/-- Modelled from the spec: the gift-win entry point `gift-promo(session_id)`
— the engine validates that the session exists before issuing for reason
`giftWin`; a session already gift-rewarded is rejected by `issue` with
`AlreadyIssued` (§4.4, §9). -/
def giftPromo (cfg : Settings) (st : EngineState) (sid : Nat)
    (now day : Nat) : Except GameError PromoCode × EngineState :=
  if sid ∈ st.sessions then issue cfg st sid .giftWin now day
  else (.error .InvalidSession, st)

/-- Sequential runs of `issue`, collecting each call's result (§8, daily
cap property). -/
def runIssues (cfg : Settings) (now day : Nat) :
    EngineState → List (Nat × Reason) → List (Except GameError PromoCode) × EngineState
  | st, [] => ([], st)
  | st, q :: qs =>
    let r := issue cfg st q.1 q.2 now day
    let rest := runIssues cfg now day r.2 qs
    (r.1 :: rest.1, rest.2)

/-- Serialization of one cell for the wire: the three literal symbols `.`
(empty), `X` (player), `O` (opponent).  Modelled from the spec (§6); the
client reads exactly these literals. -/
def cellSymbol : Option Mark → String
  | none => "."
  | some .X => "X"
  | some .O => "O"

/-- Modelled from the spec: board serialization — a 9-element sequence of
the three literal symbols, in cell order 0–8 row-major (§6). -/
def serializeBoard (b : Board) : List String :=
  b.map cellSymbol

/-- The client's reading of one wire cell, from `GamePage`'s rendering in
`gifts.ts`: the mark `X` is shown for `"X"`, the mark `O` for `"O"`, and
everything else renders as an empty cell. -/
def clientCellMark (s : String) : Option Mark :=
  if s = "X" then some .X
  else if s = "O" then some .O
  else none

/-- The client's positional interpretation of the wire board: grid cell `i`
is read from element `i` of the response board (`GamePage` maps over
`state.board` with the cell index). -/
def clientGrid (board : List String) : List (Option Mark) :=
  board.map clientCellMark

/-- Gift types, from `gifts.ts`: the six collectible kinds. -/
inductive GiftType where
  | flower
  | jewelry
  | gift
  | star
  | heart
  | sparkles
deriving DecidableEq, Repr

/-- The list literal `giftTypes` of `generateGift` in `gifts.ts`. -/
def giftTypes : List GiftType :=
  [.flower, .jewelry, .gift, .star, .heart, .sparkles]

/-- A generated gift: `{ position, type }` from `gifts.ts`. -/
structure GiftRec where
  position : Nat
  type : GiftType
deriving DecidableEq, Repr

/-- Function `generateGift` from `gifts.ts`: one gift under a random cell.  The two
random draws `Math.floor(Math.random() * 9)` and
`Math.floor(Math.random() * giftTypes.length)` are passed in as `r1` and
`r2`; actual calls always satisfy `r1 < 9` and `r2 < 6`.  The declared
return type is nullable but the function always returns an object. -/
def generateGift (r1 r2 : Nat) : Option GiftRec :=
  some ⟨r1, giftTypes.getD r2 .flower⟩

/-- The state of `GamePage` in `gifts.ts` that the gift and promo flow reads
and writes, together with the server-side session id allocation
(`nextSession` models the backend handing out fresh ids on `newGame`) and
two history logs (`pickups`, `promoRequests`) recording, for each gift
pickup and each `getGiftPromo` call, the session id current at that moment. -/
structure ClientState where
  nextSession : Nat
  sessionId : Nat
  status : Status
  board : List String
  promoCode : Option Nat
  gift : Option GiftRec
  openedCells : List Nat
  collectedGifts : List GiftType
  giftCollectedInThisGame : Bool
  showWinModal : Bool
  pickups : List (Nat × GiftType)
  promoRequests : List Nat
deriving DecidableEq, Repr

/-- A successful `makeMove` response as the client consumes it: the updated
board and status, and the promo code when the server granted one
(`GameState` in `client.ts`; the session id is echoed unchanged). -/
structure MoveResp where
  status : Status
  board : List String
  promo : Option Nat
deriving DecidableEq, Repr

/-- Function `startNewGame(nextDifficulty?, resetGifts)` from `gifts.ts`: hides the
win modal, clears the collected gifts only when `resetGifts` is set,
generates a new gift from the random draws `r1`, `r2`, and clears the opened
cells and the per-game collected flag — all before the `await newGame(d)`
inside the `try`/`catch`.  When the request succeeds (`ok`) the fresh
session the server returns is installed (fresh id, empty board,
`IN_PROGRESS`); when it fails, the `catch` only records the error, so the
old `state` — session id, board, status and promo code — is kept and the new
round, with its fresh gift and cleared flag, plays on the old session. -/
def startNewGame (resetGifts ok : Bool) (r1 r2 : Nat) (st : ClientState) :
    ClientState :=
  let st1 :=
    { st with
      showWinModal := false
      collectedGifts := if resetGifts then [] else st.collectedGifts
      gift := generateGift r1 r2
      openedCells := []
      giftCollectedInThisGame := false }
  if ok then
    { st1 with
      sessionId := st.nextSession
      nextSession := st.nextSession + 1
      status := .IN_PROGRESS
      board := List.replicate 9 "."
      promoCode := none }
  else st1

/-- Handler `onCellClick(cell)` from `gifts.ts`, one atomic handler run with the
server's `makeMove` response `resp` supplied by the environment, and
`giftResp` the `getGiftPromo` outcome used only when that request fires
(`none` models the request failing).  Returns without calling the server
when the game is not `IN_PROGRESS` or the target cell is not `"."`;
otherwise installs the response, records the opened cell, collects the gift
under the clicked cell when one is there and none was collected yet in this
game, requests the gift promo when the collection reaches three, and shows
the win modal on a normal win (checked against the pre-click collection
count, as the code reads the stale `collectedGifts`). -/
def onCellClick (cell : Nat) (resp : MoveResp) (giftResp : Option Nat)
    (st : ClientState) : ClientState :=
  if ¬(st.status = .IN_PROGRESS) then st
  else if ¬(st.board.getD cell "" = ".") then st
  else
    let st1 :=
      { st with
        status := resp.status
        board := resp.board
        promoCode := resp.promo
        openedCells := cell :: st.openedCells }
    let st2 :=
      match st.gift with
      | some g =>
        if g.position = cell ∧ st.giftCollectedInThisGame = false then
          let newCollected := st.collectedGifts ++ [g.type]
          let st3 :=
            { st1 with
              collectedGifts := newCollected
              giftCollectedInThisGame := true
              pickups := st1.pickups ++ [(st.sessionId, g.type)] }
          if 3 ≤ newCollected.length then
            let st4 := { st3 with promoRequests := st3.promoRequests ++ [st.sessionId] }
            match giftResp with
            | some code =>
              { st4 with promoCode := some code, status := .WIN, showWinModal := true }
            | none => { st4 with showWinModal := true }
          else st3
        else st1
      | none => st1
    if resp.status = .WIN ∧ resp.promo ≠ none ∧ st.collectedGifts.length < 3 then
      { st2 with showWinModal := true }
    else st2

/-- The `WinModal` `onClose` handler in `gifts.ts`: hides the modal and starts a new
game (whose `newGame` request may itself succeed or fail, `ok`), resetting
the collected gifts exactly when this was a gift win (three or more gifts
collected). -/
def closeModal (ok : Bool) (r1 r2 : Nat) (st : ClientState) : ClientState :=
  if st.showWinModal then
    startNewGame (3 ≤ st.collectedGifts.length) ok r1 r2 st
  else st

/-- The environment-driven events of the `GamePage` client: the new-game
button (or difficulty change), a cell click with the server's response, and
closing the win modal.  Each event carries the nondeterministic inputs the
handler consumes; for the two events that run `startNewGame`, `ok` is
whether the `newGame` request succeeded. -/
inductive ClientEvent where
  | newGameClick (ok : Bool) (r1 r2 : Nat)
  | cellClick (cell : Nat) (resp : MoveResp) (giftResp : Option Nat)
  | modalClose (ok : Bool) (r1 r2 : Nat)
deriving DecidableEq, Repr

/-- One client step. -/
def clientStep (st : ClientState) : ClientEvent → ClientState
  | .newGameClick ok r1 r2 => startNewGame false ok r1 r2 st
  | .cellClick cell resp giftResp => onCellClick cell resp giftResp st
  | .modalClose ok r1 r2 => closeModal ok r1 r2 st

/-- The client state on mount: `useEffect` runs `startNewGame` once over the
initial `useState` values, here for runs whose initial `newGame` succeeded.
When the mount's request fails, `state` stays `null` and every handler
returns immediately (`if (!state || !canPlay) return`) until some new-game
request succeeds, so such a run plays out as a later successful mount. -/
def initClient (r1 r2 : Nat) : ClientState :=
  startNewGame false true r1 r2
    { nextSession := 0, sessionId := 0, status := .IN_PROGRESS,
      board := List.replicate 9 ".", promoCode := none, gift := none,
      openedCells := [], collectedGifts := [], giftCollectedInThisGame := false,
      showWinModal := false, pickups := [], promoRequests := [] }

/-- A client run: the mount followed by an arbitrary event sequence. -/
def runClient (r1 r2 : Nat) (evs : List ClientEvent) : ClientState :=
  evs.foldl clientStep (initClient r1 r2)

/-- The client-side guard of `onCellClick` (`gifts.ts`): the server is
called exactly when play is allowed (`canPlay`: status `IN_PROGRESS` and not
busy) and the target cell reads `"."`. -/
def clientSends (status : Status) (board : List String) (busy : Bool)
    (cell : Nat) : Bool :=
  status = .IN_PROGRESS && !busy && board.getD cell "" = "."

/-- Whether an issuance result is a success. -/
def isOkE (r : Except GameError PromoCode) : Bool :=
  match r with
  | .ok _ => true
  | .error _ => false

/-- The gift-ledger invariant of the `GamePage` client: the current session
id is one the allocator has handed out; every logged pickup belongs to an
already-allocated session; and the sidebar collection never exceeds the
pickup log. -/
def ClientInv (st : ClientState) : Prop :=
  st.sessionId < st.nextSession ∧
  (∀ p ∈ st.pickups, p.1 < st.nextSession) ∧
  st.collectedGifts.length ≤ st.pickups.length

/-- Test that an event is a cell click — the one event that does not start a
new round (`startNewGame` being what resets `giftCollectedInThisGame`). -/
def isCellClick : ClientEvent → Bool
  | .cellClick _ _ _ => true
  | _ => false

theorem isM_iff (m : Mark) (c : Option Mark) : isM m c = true ↔ c = some m := by
  cases c with
  | none => cases m <;> simp [isM]
  | some m1 => cases m <;> cases m1 <;> simp [isM]

theorem isE_iff (c : Option Mark) : isE c = true ↔ c = none := by
  cases c <;> simp [isE]

theorem cellAt_set_ne (b : Board) (c i : Nat) (m : Mark) (h : c ≠ i) :
    cellAt (setCell b c m) i = cellAt b i := by
  simp [cellAt, setCell, List.getD_eq_getElem?_getD, List.getElem?_set_ne h]

theorem cellAt_set_self (b : Board) (c : Nat) (m : Mark) (hc : c < b.length) :
    cellAt (setCell b c m) c = some m := by
  simp [cellAt, setCell, List.getD_eq_getElem?_getD, List.getElem?_set_self hc]

theorem isM_cellAt_set_other (m m' : Mark) (b : Board) (c i : Nat)
    (hmm : m' ≠ m) (h : isM m' (cellAt (setCell b c m) i) = true) :
    isM m' (cellAt b i) = true := by
  by_cases hci : c = i
  · subst hci
    rw [isM_iff] at h
    have : cellAt (setCell b c m) c ≠ some m' := by
      simp only [cellAt, setCell, List.getD_eq_getElem?_getD,
        List.getElem?_set_self']
      cases hb : b[c]? with
      | none => simp
      | some x => simpa using fun hx => hmm hx.symm
    exact absurd h this
  · rwa [cellAt_set_ne b c i m hci] at h

theorem lineFor_set_other (m m' : Mark) (b : Board) (c i j k : Nat)
    (hmm : m' ≠ m) (h : lineFor m' (setCell b c m) i j k = true) :
    lineFor m' b i j k = true := by
  simp only [lineFor, Bool.and_eq_true] at h ⊢
  exact ⟨⟨isM_cellAt_set_other m m' b c i hmm h.1.1,
          isM_cellAt_set_other m m' b c j hmm h.1.2⟩,
          isM_cellAt_set_other m m' b c k hmm h.2⟩

theorem hasLine_set_other (m m' : Mark) (b : Board) (c : Nat)
    (hmm : m' ≠ m) (h : hasLine m' (setCell b c m) = true) :
    hasLine m' b = true := by
  simp only [hasLine, Bool.or_eq_true] at h
  rcases h with ((((((h | h) | h) | h) | h) | h) | h) | h <;>
    simp [hasLine, lineFor_set_other m m' b c _ _ _ hmm h]

theorem evaluate_eq_inProgress (b : Board) :
    evaluate b = .inProgress ↔
      hasLine .X b = false ∧ hasLine .O b = false ∧ isFull b = false := by
  cases hX : hasLine .X b <;> cases hO : hasLine .O b <;>
    cases hF : isFull b <;> simp [evaluate, hX, hO, hF]

theorem evaluate_eq_winX (b : Board) :
    evaluate b = .win .X ↔ hasLine .X b = true := by
  cases hX : hasLine .X b <;> cases hO : hasLine .O b <;>
    cases hF : isFull b <;> simp [evaluate, hX, hO, hF]

theorem evaluate_eq_winO (b : Board) :
    evaluate b = .win .O ↔ hasLine .X b = false ∧ hasLine .O b = true := by
  cases hX : hasLine .X b <;> cases hO : hasLine .O b <;>
    cases hF : isFull b <;> simp [evaluate, hX, hO, hF]

theorem evaluate_eq_draw (b : Board) :
    evaluate b = .draw ↔
      hasLine .X b = false ∧ hasLine .O b = false ∧ isFull b = true := by
  cases hX : hasLine .X b <;> cases hO : hasLine .O b <;>
    cases hF : isFull b <;> simp [evaluate, hX, hO, hF]

theorem mem_prefOrder (c : Nat) : c ∈ prefOrder ↔ c < 9 := by
  constructor
  · revert c; decide
  · revert c; decide

theorem prefOrder_count (c : Nat) (hc : c < 9) : prefOrder.count c = 1 := by
  revert hc; revert c; decide

theorem mem_emptiesPref (b : Board) (c : Nat) :
    c ∈ emptiesPref b ↔ c < 9 ∧ isE (cellAt b c) = true := by
  simp [emptiesPref, List.mem_filter, mem_prefOrder]

theorem length_setCell (b : Board) (c : Nat) (m : Mark) :
    (setCell b c m).length = b.length := by
  simp [setCell]

theorem filter_length_update {p q : Nat → Bool} {c : Nat} :
    ∀ {l : List Nat}, l.count c = 1 → p c = true → q c = false →
      (∀ x ∈ l, x ≠ c → q x = p x) →
      (l.filter q).length + 1 = (l.filter p).length := by
  intro l
  induction l with
  | nil => intro h; simp at h
  | cons a l ih =>
    intro hcount hp hq hag
    by_cases hac : a = c
    · subst hac
      have hl0 : l.count a = 0 := by
        have := List.count_cons_self a l
        omega
      have hnot : a ∉ l := List.count_eq_zero.mp hl0
      have hfil : l.filter q = l.filter p := by
        apply List.filter_congr
        intro x hx
        exact hag x (List.mem_cons_of_mem a hx) (fun hxa => hnot (hxa ▸ hx))
      rw [List.filter_cons, List.filter_cons, hp, hq]
      simp [hfil]
    · have hcount' : l.count c = 1 := by
        rw [List.count_cons] at hcount
        simp [hac] at hcount
        omega
      have hqa : q a = p a := hag a (List.mem_cons_self a l) hac
      have ih' := ih hcount' hp hq
        (fun x hx => hag x (List.mem_cons_of_mem a hx))
      rw [List.filter_cons, List.filter_cons, hqa]
      cases hpa : p a <;> simp [hpa, ih']

theorem countEmpties_set (b : Board) (c : Nat) (m : Mark)
    (hl : b.length = 9) (hc : c < 9) (he : isE (cellAt b c) = true) :
    countEmpties (setCell b c m) + 1 = countEmpties b := by
  apply filter_length_update (prefOrder_count c hc) he
  · rw [cellAt_set_self b c m (by omega)]
    simp [isE]
  · intro x _ hxc
    rw [cellAt_set_ne b c x m (fun h => hxc h.symm)]



theorem maxFold_le_two (valf : Board → Nat) (b : Board)
    (hv : ∀ b1, valf b1 ≤ 2) : ∀ cs, maxFold valf b cs ≤ 2 := by
  intro cs
  induction cs with
  | nil => simp [maxFold]
  | cons c cs ih =>
    simp only [maxFold]
    by_cases h : valf (setCell b c .X) = 2
    · rw [if_pos h]
    · rw [if_neg h]
      exact Nat.max_le.mpr ⟨hv _, ih⟩

theorem maxFold_ge (valf : Board → Nat) (b : Board)
    (hv : ∀ b1, valf b1 ≤ 2) :
    ∀ cs x, x ∈ cs → valf (setCell b x .X) ≤ maxFold valf b cs := by
  intro cs
  induction cs with
  | nil => intro x hx; simp at hx
  | cons c cs ih =>
    intro x hx
    simp only [maxFold]
    by_cases h : valf (setCell b c .X) = 2
    · rw [if_pos h]
      exact hv _
    · rw [if_neg h]
      rcases List.mem_cons.mp hx with hx | hx
      · subst hx; exact Nat.le_max_left _ _
      · exact Nat.le_trans (ih x hx) (Nat.le_max_right _ _)

theorem maxFold_le_one (valf : Board → Nat) (b : Board) :
    ∀ cs, (∀ x ∈ cs, valf (setCell b x .X) ≤ 1) → maxFold valf b cs ≤ 1 := by
  intro cs
  induction cs with
  | nil => intro _; simp [maxFold]
  | cons c cs ih =>
    intro h
    simp only [maxFold]
    have hc := h c (List.mem_cons_self c cs)
    by_cases h2 : valf (setCell b c .X) = 2
    · omega
    · rw [if_neg h2]
      exact Nat.max_le.mpr ⟨hc, ih fun x hx => h x (List.mem_cons_of_mem c hx)⟩

theorem bestO_eq_none (valf : Board → Nat) (b : Board) :
    ∀ cs, bestO valf b cs = none ↔ cs = [] := by
  intro cs
  cases cs with
  | nil => simp [bestO]
  | cons c cs =>
    simp only [bestO]
    by_cases h : valf (setCell b c .O) = 0
    · rw [if_pos h]; simp
    · rw [if_neg h]
      cases bestO valf b cs with
      | none => simp
      | some p =>
        obtain ⟨pv, pc⟩ := p
        by_cases hle : valf (setCell b c .O) ≤ pv <;> simp [hle]

theorem bestO_some_mem (valf : Board → Nat) (b : Board) :
    ∀ cs v c, bestO valf b cs = some (v, c) →
      c ∈ cs ∧ valf (setCell b c .O) = v := by
  intro cs
  induction cs with
  | nil => intro v c h; simp [bestO] at h
  | cons a cs ih =>
    intro v c h
    simp only [bestO] at h
    by_cases h0 : valf (setCell b a .O) = 0
    · rw [if_pos h0] at h
      obtain ⟨hv, hc⟩ := Prod.mk.injEq .. ▸ Option.some_inj.mp h
      subst hc; subst hv
      exact ⟨List.mem_cons_self a cs, rfl⟩
    · rw [if_neg h0] at h
      cases hrec : bestO valf b cs with
      | none =>
        rw [hrec] at h
        simp only at h
        obtain ⟨hv, hc⟩ := Prod.mk.injEq .. ▸ Option.some_inj.mp h
        subst hc; subst hv
        exact ⟨List.mem_cons_self a cs, rfl⟩
      | some p =>
        obtain ⟨pv, pc⟩ := p
        rw [hrec] at h
        simp only at h
        by_cases hle : valf (setCell b a .O) ≤ pv
        · rw [if_pos hle] at h
          obtain ⟨hv, hc⟩ := Prod.mk.injEq .. ▸ Option.some_inj.mp h
          subst hc; subst hv
          exact ⟨List.mem_cons_self a cs, rfl⟩
        · rw [if_neg hle] at h
          obtain ⟨hv, hc⟩ := Prod.mk.injEq .. ▸ Option.some_inj.mp h
          subst hc; subst hv
          have hmem := ih pv pc hrec
          exact ⟨List.mem_cons_of_mem a hmem.1, hmem.2⟩

theorem bestO_min (valf : Board → Nat) (b : Board) :
    ∀ cs v c, bestO valf b cs = some (v, c) →
      ∀ x ∈ cs, v ≤ valf (setCell b x .O) := by
  intro cs
  induction cs with
  | nil => intro v c h; simp [bestO] at h
  | cons a cs ih =>
    intro v c h x hx
    simp only [bestO] at h
    by_cases h0 : valf (setCell b a .O) = 0
    · rw [if_pos h0] at h
      obtain ⟨hv, hc⟩ := Prod.mk.injEq .. ▸ Option.some_inj.mp h
      omega
    · rw [if_neg h0] at h
      cases hrec : bestO valf b cs with
      | none =>
        rw [hrec] at h
        simp only at h
        obtain ⟨hv, hc⟩ := Prod.mk.injEq .. ▸ Option.some_inj.mp h
        have hcs : cs = [] := (bestO_eq_none valf b cs).mp hrec
        subst hcs
        rcases List.mem_cons.mp hx with hx1 | hx1
        · subst hx1; omega
        · simp at hx1
      | some p =>
        obtain ⟨pv, pc⟩ := p
        rw [hrec] at h
        simp only at h
        by_cases hle : valf (setCell b a .O) ≤ pv
        · rw [if_pos hle] at h
          obtain ⟨hv, hc⟩ := Prod.mk.injEq .. ▸ Option.some_inj.mp h
          rcases List.mem_cons.mp hx with hx1 | hx1
          · subst hx1; omega
          · have hih := ih pv pc hrec x hx1
            omega
        · rw [if_neg hle] at h
          obtain ⟨hv, hc⟩ := Prod.mk.injEq .. ▸ Option.some_inj.mp h
          rcases List.mem_cons.mp hx with hx1 | hx1
          · subst hx1; omega
          · have hih := ih pv pc hrec x hx1
            omega

theorem bestO_first (valf : Board → Nat) (b : Board) :
    ∀ cs v c, bestO valf b cs = some (v, c) →
      ∃ l1 l2, cs = l1 ++ c :: l2 ∧
        ∀ x ∈ l1, v < valf (setCell b x .O) := by
  intro cs
  induction cs with
  | nil => intro v c h; simp [bestO] at h
  | cons a cs ih =>
    intro v c h
    simp only [bestO] at h
    by_cases h0 : valf (setCell b a .O) = 0
    · rw [if_pos h0] at h
      obtain ⟨hv, hc⟩ := Prod.mk.injEq .. ▸ Option.some_inj.mp h
      subst hc
      exact ⟨[], cs, rfl, by simp⟩
    · rw [if_neg h0] at h
      cases hrec : bestO valf b cs with
      | none =>
        rw [hrec] at h
        simp only at h
        obtain ⟨hv, hc⟩ := Prod.mk.injEq .. ▸ Option.some_inj.mp h
        subst hc
        exact ⟨[], cs, rfl, by simp⟩
      | some p =>
        obtain ⟨pv, pc⟩ := p
        rw [hrec] at h
        simp only at h
        by_cases hle : valf (setCell b a .O) ≤ pv
        · rw [if_pos hle] at h
          obtain ⟨hv, hc⟩ := Prod.mk.injEq .. ▸ Option.some_inj.mp h
          subst hc
          exact ⟨[], cs, rfl, by simp⟩
        · rw [if_neg hle] at h
          obtain ⟨hv, hc⟩ := Prod.mk.injEq .. ▸ Option.some_inj.mp h
          subst hc; subst hv
          obtain ⟨l1, l2, hsplit, hlt⟩ := ih pv pc hrec
          refine ⟨a :: l1, l2, by simp [hsplit], ?_⟩
          intro x hx
          rcases List.mem_cons.mp hx with hx1 | hx1
          · subst hx1; omega
          · have := hlt x hx1; omega

theorem val_le_two (f : Nat) : ∀ (t : Mark) (b : Board), val f t b ≤ 2 := by
  induction f with
  | zero =>
    intro t b
    simp only [val]
    cases heval : evaluate b with
    | inProgress => simp
    | win m => cases m <;> simp
    | draw => simp
  | succ f ih =>
    intro t b
    simp only [val]
    cases heval : evaluate b with
    | inProgress =>
      cases t with
      | X => exact maxFold_le_two (val f .O) b (ih .O) (emptiesPref b)
      | O =>
        cases hb : bestO (val f .X) b (emptiesPref b) with
        | none => simp
        | some p =>
          obtain ⟨pv, pc⟩ := p
          simp only
          have hmem := bestO_some_mem (val f .X) b (emptiesPref b) pv pc hb
          rw [← hmem.2]
          exact ih .X _
    | win m => cases m <;> simp
    | draw => simp

theorem safe_sound (f : Nat) :
    ∀ (t : Mark) (b : Board), safe f t b = true → val f t b ≤ 1 := by
  induction f with
  | zero =>
    intro t b h
    simp only [safe] at h
    simp only [val]
    cases heval : evaluate b with
    | inProgress => simp
    | win m =>
      cases m
      · rw [heval] at h; simp at h
      · simp
    | draw => simp
  | succ f ih =>
    intro t b h
    simp only [safe] at h
    simp only [val]
    cases heval : evaluate b with
    | inProgress =>
      rw [heval] at h
      simp only at h
      cases t with
      | X =>
        rw [List.all_eq_true] at h
        exact maxFold_le_one (val f .O) b (emptiesPref b)
          fun x hx => ih .O _ (h x hx)
      | O =>
        rw [List.any_eq_true] at h
        obtain ⟨x, hx, hsafe⟩ := h
        have hnonnil : emptiesPref b ≠ [] := List.ne_nil_of_mem hx
        cases hb : bestO (val f .X) b (emptiesPref b) with
        | none => exact absurd ((bestO_eq_none _ b _).mp hb) hnonnil
        | some p =>
          obtain ⟨pv, pc⟩ := p
          simp only
          have hmin := bestO_min (val f .X) b (emptiesPref b) pv pc hb x hx
          have hchild := ih .X _ hsafe
          omega
    | win m =>
      cases m
      · rw [heval] at h; simp at h
      · simp
    | draw => simp

theorem val_of_winX (f : Nat) (t : Mark) (b : Board)
    (h : evaluate b = .win .X) : val f t b = 2 := by
  cases f <;> simp [val, h]

theorem exists_empty_cell (b : Board) (hfull : isFull b = false) :
    ∃ i, i < b.length ∧ isE (cellAt b i) = true := by
  have h : ¬(∀ x ∈ b, (!(isE x)) = true) := by
    intro hall
    rw [← List.all_eq_true] at hall
    rw [isFull] at hfull
    rw [hall] at hfull
    simp at hfull
  push_neg at h
  obtain ⟨x, hxmem, hx⟩ := h
  obtain ⟨i, hilen, hieq⟩ := List.mem_iff_getElem.mp hxmem
  refine ⟨i, hilen, ?_⟩
  have : cellAt b i = x := by
    simp [cellAt, List.getD_eq_getElem?_getD, List.getElem?_eq_getElem hilen, hieq]
  rw [this]
  cases hie : isE x
  · rw [hie] at hx; simp at hx
  · rfl

theorem emptiesPref_ne_nil (b : Board) (hl : b.length = 9)
    (hfull : isFull b = false) : emptiesPref b ≠ [] := by
  obtain ⟨i, hilen, hie⟩ := exists_empty_cell b hfull
  exact List.ne_nil_of_mem ((mem_emptiesPref b i).mpr ⟨by omega, hie⟩)

theorem countEmpties_pos (b : Board) (hl : b.length = 9)
    (hprog : evaluate b = .inProgress) : 1 ≤ countEmpties b := by
  have hfull := ((evaluate_eq_inProgress b).mp hprog).2.2
  have := emptiesPref_ne_nil b hl hfull
  rw [countEmpties]
  cases hgl : emptiesPref b with
  | nil => exact absurd hgl this
  | cons a l => simp

theorem applyMove_ok_iff (b : Board) (cell : Nat) (m : Mark) (b1 : Board) :
    applyMove b cell m = .ok b1 ↔
      cell < 9 ∧ isE (cellAt b cell) = true ∧ evaluate b = .inProgress ∧
        b1 = setCell b cell m := by
  unfold applyMove
  by_cases h1 : 9 ≤ cell
  · rw [if_pos h1]
    constructor
    · intro h; simp at h
    · intro h; omega
  · rw [if_neg h1]
    by_cases h2 : isE (cellAt b cell) = true
    · rw [if_neg (by simp [h2])]
      by_cases h3 : evaluate b = .inProgress
      · rw [if_neg (fun hh => hh h3)]
        constructor
        · intro h
          exact ⟨by omega, h2, h3, (Except.ok.injEq _ _ ▸ h).symm⟩
        · intro h
          rw [h.2.2.2]
      · rw [if_pos h3]
        constructor
        · intro h; simp at h
        · intro h; exact absurd h.2.2.1 h3
    · rw [if_pos (by simp [h2])]
      constructor
      · intro h; simp at h
      · intro h; exact absurd h.2.1 h2

theorem applyMove_illegal_iff (b : Board) (cell : Nat) (m : Mark) :
    applyMove b cell m = .error .IllegalMove ↔
      9 ≤ cell ∨ isE (cellAt b cell) = false ∨ evaluate b ≠ .inProgress := by
  unfold applyMove
  by_cases h1 : 9 ≤ cell
  · rw [if_pos h1]
    simp [h1]
  · rw [if_neg h1]
    by_cases h2 : isE (cellAt b cell) = true
    · rw [if_neg (by simp [h2])]
      by_cases h3 : evaluate b = .inProgress
      · rw [if_neg (fun hh => hh h3)]
        simp [h1, h2, h3]
      · rw [if_pos h3]
        simp [h3]
    · rw [if_pos (by simp [h2])]
      have h2' : isE (cellAt b cell) = false := by
        cases hie : isE (cellAt b cell)
        · rfl
        · exact absurd hie h2
      simp [h2']

theorem selectOptimal_ok (b : Board) (c : Nat) (h : selectOptimal b = .ok c) :
    evaluate b = .inProgress ∧
      ∃ v, bestO (val (countEmpties b - 1) .X) b (emptiesPref b) = some (v, c) := by
  unfold selectOptimal at h
  by_cases h3 : evaluate b = .inProgress
  · rw [if_neg (fun hh => hh h3)] at h
    refine ⟨h3, ?_⟩
    cases hb : bestO (val (countEmpties b - 1) .X) b (emptiesPref b) with
    | none => rw [hb] at h; simp at h
    | some p =>
      obtain ⟨pv, pc⟩ := p
      rw [hb] at h
      simp only [Except.ok.injEq] at h
      subst h
      exact ⟨pv, rfl⟩

  · rw [if_pos h3] at h
    simp at h

theorem selectOptimal_some (b : Board) (hprog : evaluate b = .inProgress)
    (hl : b.length = 9) : ∃ c, selectOptimal b = .ok c := by
  unfold selectOptimal
  rw [if_neg (fun hh => hh hprog)]
  have hfull := ((evaluate_eq_inProgress b).mp hprog).2.2
  have hne := emptiesPref_ne_nil b hl hfull
  cases hb : bestO (val (countEmpties b - 1) .X) b (emptiesPref b) with
  | none => exact absurd ((bestO_eq_none _ b _).mp hb) hne
  | some p => exact ⟨p.2, by simp⟩

theorem applyPlayerMove_ok_preserve (s s1 : Session) (cell : Nat)
    (hl : s.board.length = 9)
    (hv : s.status = .IN_PROGRESS → val (countEmpties s.board) .X s.board ≤ 1)
    (happ : applyPlayerMove selectOptimal s cell = .ok s1) :
    s1.board.length = 9 ∧ s1.status ≠ .WIN ∧
      (s1.status = .IN_PROGRESS →
        val (countEmpties s1.board) .X s1.board ≤ 1) := by
  unfold applyPlayerMove at happ
  by_cases hst : s.status = .IN_PROGRESS
  case neg =>
    rw [if_pos hst] at happ
    simp at happ
  case pos =>
    rw [if_neg (fun hh => hh hst)] at happ
    cases ham : applyMove s.board cell .X with
    | error e => rw [ham] at happ; simp at happ
    | ok b1 =>
      rw [ham] at happ
      simp only at happ
      obtain ⟨hcell, hemp, hprog, hb1⟩ := (applyMove_ok_iff _ _ _ _).mp ham
      have hval := hv hst
      have hmem : cell ∈ emptiesPref s.board :=
        (mem_emptiesPref s.board cell).mpr ⟨hcell, hemp⟩
      have hepos : 1 ≤ countEmpties s.board := countEmpties_pos s.board hl hprog
      obtain ⟨e1, he1⟩ : ∃ e1, countEmpties s.board = e1 + 1 :=
        ⟨countEmpties s.board - 1, by omega⟩
      rw [he1] at hval
      simp only [val, hprog] at hval
      have hb1val : val e1 .O b1 ≤ 1 := by
        rw [hb1]
        exact Nat.le_trans
          (maxFold_ge (val e1 .O) s.board (val_le_two e1 .O)
            (emptiesPref s.board) cell hmem) hval
      have hb1len : b1.length = 9 := by rw [hb1, length_setCell, hl]
      have hb1cnt : countEmpties b1 = e1 := by
        rw [hb1]
        have := countEmpties_set s.board cell .X hl hcell hemp
        omega
      cases hev1 : evaluate b1 with
      | win m =>
        cases m with
        | X =>
          have h2 := val_of_winX e1 .O b1 hev1
          omega
        | O =>
          rw [hev1] at happ
          simp only at happ
          have hsel : selectOptimal b1 = .error .NoLegalMove := by
            unfold selectOptimal
            rw [if_pos (by rw [hev1]; intro hh; exact Outcome.noConfusion hh)]
          rw [hsel] at happ
          simp at happ
      | draw =>
        rw [hev1] at happ
        simp only [Except.ok.injEq] at happ
        subst happ
        refine ⟨hb1len, by simp, ?_⟩
        intro hcon
        simp at hcon
      | inProgress =>
        rw [hev1] at happ
        simp only at happ
        obtain ⟨oc, hoc⟩ := selectOptimal_some b1 hev1 hb1len
        rw [hoc] at happ
        simp only at happ
        obtain ⟨-, v, hbest⟩ := selectOptimal_ok b1 oc hoc
        have hocmem := bestO_some_mem _ b1 (emptiesPref b1) v oc hbest
        have hoc9 : oc < 9 ∧ isE (cellAt b1 oc) = true :=
          (mem_emptiesPref b1 oc).mp hocmem.1
        have he1pos : 1 ≤ e1 := by
          have := countEmpties_pos b1 hb1len hev1
          omega
        obtain ⟨e2, he2⟩ : ∃ e2, e1 = e2 + 1 := ⟨e1 - 1, by omega⟩
        have hveq : val e1 .O b1 = v := by
          rw [he2]
          simp only [val, hev1]
          have hcnt2 : countEmpties b1 - 1 = e2 := by omega
          rw [hcnt2] at hbest
          rw [hbest]
        have hvle : v ≤ 1 := hveq ▸ hb1val
        have hamO : applyMove b1 oc .O = .ok (setCell b1 oc .O) :=
          (applyMove_ok_iff _ _ _ _).mpr ⟨hoc9.1, hoc9.2, hev1, rfl⟩
        rw [hamO] at happ
        simp only at happ
        have hb2len : (setCell b1 oc .O).length = 9 := by
          rw [length_setCell, hb1len]
        have hb2cnt : countEmpties (setCell b1 oc .O) = e2 := by
          have := countEmpties_set b1 oc .O hb1len hoc9.1 hoc9.2
          omega
        have hb2val : val e2 .X (setCell b1 oc .O) ≤ 1 := by
          have hcnt2 : countEmpties b1 - 1 = e2 := by omega
          rw [← hcnt2]
          rw [hocmem.2]
          exact hvle
        cases hev2 : evaluate (setCell b1 oc .O) with
        | win m =>
          cases m with
          | X =>
            have h2 := val_of_winX e2 .X (setCell b1 oc .O) hev2
            omega
          | O =>
            rw [hev2] at happ
            simp only [Except.ok.injEq] at happ
            subst happ
            refine ⟨hb2len, by simp, ?_⟩
            intro hcon
            simp at hcon
        | draw =>
          rw [hev2] at happ
          simp only [Except.ok.injEq] at happ
          subst happ
          refine ⟨hb2len, by simp, ?_⟩
          intro hcon
          simp at hcon
        | inProgress =>
          rw [hev2] at happ
          simp only [Except.ok.injEq] at happ
          subst happ
          refine ⟨hb2len, by simp, ?_⟩
          intro _
          rw [hb2cnt]
          exact hb2val

theorem stepOptimal_preserve (s : Session) (cell : Nat)
    (hl : s.board.length = 9) (hw : s.status ≠ .WIN)
    (hv : s.status = .IN_PROGRESS → val (countEmpties s.board) .X s.board ≤ 1) :
    (stepOptimal s cell).board.length = 9 ∧
      (stepOptimal s cell).status ≠ .WIN ∧
      ((stepOptimal s cell).status = .IN_PROGRESS →
        val (countEmpties (stepOptimal s cell).board) .X
          (stepOptimal s cell).board ≤ 1) := by
  unfold stepOptimal
  cases happ : applyPlayerMove selectOptimal s cell with
  | error e => exact ⟨hl, hw, hv⟩
  | ok s1 =>
    exact applyPlayerMove_ok_preserve s s1 cell hl hv happ

theorem foldl_stepOptimal_inv (moves : List Nat) :
    ∀ s : Session, s.board.length = 9 → s.status ≠ .WIN →
      (s.status = .IN_PROGRESS → val (countEmpties s.board) .X s.board ≤ 1) →
      (moves.foldl stepOptimal s).board.length = 9 ∧
        (moves.foldl stepOptimal s).status ≠ .WIN ∧
        ((moves.foldl stepOptimal s).status = .IN_PROGRESS →
          val (countEmpties (moves.foldl stepOptimal s).board) .X
            (moves.foldl stepOptimal s).board ≤ 1) := by
  induction moves with
  | nil => intro s hl hw hv; exact ⟨hl, hw, hv⟩
  | cons c moves ih =>
    intro s hl hw hv
    have hstep := stepOptimal_preserve s c hl hw hv
    exact ih (stepOptimal s c) hstep.1 hstep.2.1 hstep.2.2

theorem countEmpties_emptyBoard : countEmpties emptyBoard = 9 := by decide

theorem playMoves_never_win (hroot : val 9 .X emptyBoard ≤ 1) :
    ∀ moves : List Nat, (playMoves moves).status ≠ .WIN := by
  intro moves
  have hinit : createSession.status = .IN_PROGRESS →
      val (countEmpties createSession.board) .X createSession.board ≤ 1 := by
    intro _
    show val (countEmpties emptyBoard) .X emptyBoard ≤ 1
    rw [countEmpties_emptyBoard]
    exact hroot
  exact (foldl_stepOptimal_inv moves createSession rfl (by simp [createSession]) hinit).2.1

theorem selectOptimal_det (b : Board) (cell : Nat)
    (h : selectOptimal b = .ok cell) :
    cell ∈ emptiesPref b ∧
      (∀ c ∈ emptiesPref b, childVal b cell ≤ childVal b c) ∧
      ∃ l1 l2, emptiesPref b = l1 ++ cell :: l2 ∧
        ∀ c ∈ l1, childVal b cell < childVal b c := by
  obtain ⟨-, v, hbest⟩ := selectOptimal_ok b cell h
  have hmem := bestO_some_mem _ b (emptiesPref b) v cell hbest
  have hcv : childVal b cell = v := hmem.2
  refine ⟨hmem.1, ?_, ?_⟩
  · intro c hc
    rw [hcv]
    exact bestO_min _ b (emptiesPref b) v cell hbest c hc
  · obtain ⟨l1, l2, hsplit, hlt⟩ := bestO_first _ b (emptiesPref b) v cell hbest
    exact ⟨l1, l2, hsplit, fun c hc => hcv ▸ hlt c hc⟩

theorem reachB_not_both (b : Board) (h : ReachableB b) :
    hasLine .X b = false ∨ hasLine .O b = false := by
  induction h with
  | empty => left; decide
  | step b c m hb hprog hc9 hemp ih =>
    have hXf := ((evaluate_eq_inProgress b).mp hprog).1
    have hOf := ((evaluate_eq_inProgress b).mp hprog).2.1
    cases m with
    | X =>
      right
      cases hline : hasLine .O (setCell b c .X) with
      | false => rfl
      | true =>
        have := hasLine_set_other .X .O b c (by simp) hline
        rw [this] at hOf
        simp at hOf
    | O =>
      left
      cases hline : hasLine .X (setCell b c .O) with
      | false => rfl
      | true =>
        have := hasLine_set_other .O .X b c (by simp) hline
        rw [this] at hXf
        simp at hXf

theorem applyPlayerMove_ok_cases (policy : Board → Except GameError Nat)
    (s s1 : Session) (cell : Nat)
    (happ : applyPlayerMove policy s cell = .ok s1) :
    s.status = .IN_PROGRESS ∧
      ∃ b1, applyMove s.board cell .X = .ok b1 ∧
        ((evaluate b1 = .win .X ∧ s1 = ⟨b1, .WIN⟩) ∨
         (evaluate b1 = .draw ∧ s1 = ⟨b1, .DRAW⟩) ∨
         (∃ oc b2, policy b1 = .ok oc ∧ applyMove b1 oc .O = .ok b2 ∧
           ((evaluate b2 = .win .O ∧ s1 = ⟨b2, .LOSE⟩) ∨
            (evaluate b2 = .draw ∧ s1 = ⟨b2, .DRAW⟩) ∨
            (evaluate b2 ≠ .win .O ∧ evaluate b2 ≠ .draw ∧
              s1 = ⟨b2, .IN_PROGRESS⟩)))) := by
  unfold applyPlayerMove at happ
  by_cases hst : s.status = .IN_PROGRESS
  case neg => rw [if_pos hst] at happ; simp at happ
  case pos =>
    rw [if_neg (fun hh => hh hst)] at happ
    refine ⟨hst, ?_⟩
    cases ham : applyMove s.board cell .X with
    | error e => rw [ham] at happ; simp at happ
    | ok b1 =>
      rw [ham] at happ
      simp only at happ
      refine ⟨b1, rfl, ?_⟩
      cases hev1 : evaluate b1 with
      | win m =>
        cases m with
        | X =>
          rw [hev1] at happ
          simp only [Except.ok.injEq] at happ
          exact Or.inl ⟨rfl, happ.symm⟩
        | O =>
          rw [hev1] at happ
          simp only at happ
          cases hpol : policy b1 with
          | error e => rw [hpol] at happ; simp at happ
          | ok oc =>
            rw [hpol] at happ
            simp only at happ
            cases hamO : applyMove b1 oc .O with
            | error e => rw [hamO] at happ; simp at happ
            | ok b2 =>
              rw [hamO] at happ
              simp only at happ
              refine Or.inr (Or.inr ⟨oc, b2, rfl, hamO, ?_⟩)
              cases hev2 : evaluate b2 with
              | win m2 =>
                cases m2 with
                | X =>
                  rw [hev2] at happ
                  simp only [Except.ok.injEq] at happ
                  exact Or.inr (Or.inr ⟨by decide, by decide, happ.symm⟩)
                | O =>
                  rw [hev2] at happ
                  simp only [Except.ok.injEq] at happ
                  exact Or.inl ⟨rfl, happ.symm⟩
              | draw =>
                rw [hev2] at happ
                simp only [Except.ok.injEq] at happ
                exact Or.inr (Or.inl ⟨rfl, happ.symm⟩)
              | inProgress =>
                rw [hev2] at happ
                simp only [Except.ok.injEq] at happ
                exact Or.inr (Or.inr ⟨by decide, by decide, happ.symm⟩)
      | draw =>
        rw [hev1] at happ
        simp only [Except.ok.injEq] at happ
        exact Or.inr (Or.inl ⟨rfl, happ.symm⟩)
      | inProgress =>
        rw [hev1] at happ
        simp only at happ
        cases hpol : policy b1 with
        | error e => rw [hpol] at happ; simp at happ
        | ok oc =>
          rw [hpol] at happ
          simp only at happ
          cases hamO : applyMove b1 oc .O with
          | error e => rw [hamO] at happ; simp at happ
          | ok b2 =>
            rw [hamO] at happ
            simp only at happ
            refine Or.inr (Or.inr ⟨oc, b2, rfl, hamO, ?_⟩)
            cases hev2 : evaluate b2 with
            | win m2 =>
              cases m2 with
              | X =>
                rw [hev2] at happ
                simp only [Except.ok.injEq] at happ
                exact Or.inr (Or.inr ⟨by decide, by decide, happ.symm⟩)
              | O =>
                rw [hev2] at happ
                simp only [Except.ok.injEq] at happ
                exact Or.inl ⟨rfl, happ.symm⟩
            | draw =>
              rw [hev2] at happ
              simp only [Except.ok.injEq] at happ
              exact Or.inr (Or.inl ⟨rfl, happ.symm⟩)
            | inProgress =>
              rw [hev2] at happ
              simp only [Except.ok.injEq] at happ
              exact Or.inr (Or.inr ⟨by decide, by decide, happ.symm⟩)

theorem sessionReachable_inv (s : Session) (h : SessionReachable s) :
    s.board.length = 9 ∧
      (s.status = .IN_PROGRESS → evaluate s.board = .inProgress) := by
  induction h with
  | create => exact ⟨rfl, fun _ => by decide⟩
  | step policy s s1 cell hs happ ih =>
    obtain ⟨hst, b1, ham, hcases⟩ := applyPlayerMove_ok_cases policy s s1 cell happ
    obtain ⟨hc9, hemp, hprog, hb1⟩ := (applyMove_ok_iff _ _ _ _).mp ham
    have hb1len : b1.length = 9 := by rw [hb1, length_setCell]; exact ih.1
    rcases hcases with ⟨hev, hs1⟩ | ⟨hev, hs1⟩ | ⟨oc, b2, hpol, hamO, hc2⟩
    · subst hs1
      exact ⟨hb1len, fun hcon => by simp at hcon⟩
    · subst hs1
      exact ⟨hb1len, fun hcon => by simp at hcon⟩
    · obtain ⟨hoc9, hocemp, hprog1, hb2⟩ := (applyMove_ok_iff _ _ _ _).mp hamO
      have hb2len : b2.length = 9 := by rw [hb2, length_setCell]; exact hb1len
      rcases hc2 with ⟨hev2, hs1⟩ | ⟨hev2, hs1⟩ | ⟨hnO, hnD, hs1⟩
      · subst hs1
        exact ⟨hb2len, fun hcon => by simp at hcon⟩
      · subst hs1
        exact ⟨hb2len, fun hcon => by simp at hcon⟩
      · subst hs1
        refine ⟨hb2len, fun _ => ?_⟩
        cases hev2 : evaluate b2 with
        | inProgress => rfl
        | draw => exact absurd hev2 hnD
        | win m2 =>
          cases m2 with
          | O => exact absurd hev2 hnO
          | X =>
            have hline := (evaluate_eq_winX b2).mp hev2
            rw [hb2] at hline
            have := hasLine_set_other .O .X b1 oc (by simp) hline
            have hXf := ((evaluate_eq_inProgress b1).mp hprog1).1
            rw [this] at hXf
            simp at hXf

theorem clientCellMark_cellSymbol (c : Option Mark) :
    clientCellMark (cellSymbol c) = c := by
  cases c with
  | none => rfl
  | some m => cases m <;> rfl

theorem serializeBoard_getD (b : Board) (i : Nat) (hi : i < b.length) :
    (serializeBoard b).getD i "" = cellSymbol (cellAt b i) := by
  simp [serializeBoard, cellAt, List.getD_eq_getElem?_getD,
    List.getElem?_eq_getElem hi]

theorem clientGrid_serializeBoard (b : Board) :
    clientGrid (serializeBoard b) = b := by
  rw [clientGrid, serializeBoard, List.map_map]
  have : (clientCellMark ∘ cellSymbol) = id := by
    funext c
    exact clientCellMark_cellSymbol c
  rw [this, List.map_id]

theorem cellSymbol_cases (c : Option Mark) :
    cellSymbol c = "." ∨ cellSymbol c = "X" ∨ cellSymbol c = "O" := by
  cases c with
  | none => left; rfl
  | some m => cases m
              · right; left; rfl
              · right; right; rfl

theorem cellSymbol_eq_dot (c : Option Mark) :
    cellSymbol c = "." ↔ c = none := by
  cases c with
  | none => simp [cellSymbol]
  | some m =>
    cases m <;> simp [cellSymbol]

/-- C3: for every in-progress session, if applying the player's move makes
the board terminal (player win or full-board draw), `applyPlayerMove`
transitions the status accordingly and returns with no opponent mark added —
the returned board is exactly the player-updated board, holding the player's
mark at the played cell and agreeing with the input board everywhere else. -/
theorem C3_player_terminal_frame (policy : Board → Except GameError Nat)
    (s : Session) (cell : Nat) (b1 : Board)
    (hl : s.board.length = 9)
    (hst : s.status = .IN_PROGRESS)
    (ham : applyMove s.board cell .X = .ok b1)
    (hterm : evaluate b1 = .win .X ∨ evaluate b1 = .draw) :
    ∃ st1, applyPlayerMove policy s cell = .ok ⟨b1, st1⟩ ∧
      (evaluate b1 = .win .X → st1 = .WIN) ∧
      (evaluate b1 = .draw → st1 = .DRAW) ∧
      cellAt b1 cell = some .X ∧
      (∀ i, i ≠ cell → cellAt b1 i = cellAt s.board i) := by
  obtain ⟨hc9, hemp, hprog, hb1⟩ := (applyMove_ok_iff _ _ _ _).mp ham
  have hframe1 : cellAt b1 cell = some .X := by
    rw [hb1]
    exact cellAt_set_self s.board cell .X (by omega)
  have hframe2 : ∀ i, i ≠ cell → cellAt b1 i = cellAt s.board i := by
    intro i hi
    rw [hb1]
    exact cellAt_set_ne s.board cell i .X (fun hh => hi hh.symm)
  unfold applyPlayerMove
  rw [if_neg (fun hh => hh hst), ham]
  simp only
  rcases hterm with hev | hev
  · refine ⟨.WIN, ?_, fun _ => rfl, ?_, hframe1, hframe2⟩
    · rw [hev]
    · intro hd
      rw [hev] at hd
      exact Outcome.noConfusion hd
  · refine ⟨.DRAW, ?_, ?_, fun _ => rfl, hframe1, hframe2⟩
    · rw [hev]
    · intro hw
      rw [hev] at hw
      exact Outcome.noConfusion hw

theorem C3_witness :
    ∃ st1, applyPlayerMove selectOptimal
        ⟨[some .X, some .X, none, some .O, some .O, none, none, none, none],
          .IN_PROGRESS⟩ 2 =
        .ok ⟨[some .X, some .X, some .X, some .O, some .O, none, none, none,
          none], st1⟩ ∧
      (evaluate [some .X, some .X, some .X, some .O, some .O, none, none,
        none, none] = .win .X → st1 = .WIN) ∧
      (evaluate [some .X, some .X, some .X, some .O, some .O, none, none,
        none, none] = .draw → st1 = .DRAW) ∧
      cellAt [some .X, some .X, some .X, some .O, some .O, none, none, none,
        none] 2 = some .X ∧
      (∀ i, i ≠ 2 →
        cellAt [some .X, some .X, some .X, some .O, some .O, none, none,
          none, none] i =
        cellAt (Session.board ⟨[some .X, some .X, none, some .O, some .O,
          none, none, none, none], .IN_PROGRESS⟩) i) :=
  C3_player_terminal_frame selectOptimal
    ⟨[some .X, some .X, none, some .O, some .O, none, none, none, none],
      .IN_PROGRESS⟩ 2
    [some .X, some .X, some .X, some .O, some .O, none, none, none, none]
    (by decide) rfl rfl (Or.inl (by decide))

/-- C4: for every reachable board, `evaluate` returns exactly one of
in-progress, win(X), win(O) or draw; a board with a complete line for a mark
evaluates to a win for that mark, a full board with no winning line to a
draw, and anything else to in-progress; it never reports both a win and a
draw for the same board. -/
theorem C4_evaluate_partition (b : Board) (hb : ReachableB b) :
    (evaluate b = .inProgress ∨ evaluate b = .win .X ∨
      evaluate b = .win .O ∨ evaluate b = .draw) ∧
    (∀ m, evaluate b = .win m ↔ hasLine m b = true) ∧
    (evaluate b = .draw ↔ isFull b = true ∧ ∀ m, hasLine m b = false) ∧
    (evaluate b = .inProgress ↔ isFull b = false ∧ ∀ m, hasLine m b = false) ∧
    ¬(evaluate b = .draw ∧ ∃ m, evaluate b = .win m) := by
  refine ⟨?_, ?_, ?_, ?_, ?_⟩
  · cases heval : evaluate b with
    | inProgress => exact Or.inl rfl
    | win m =>
      cases m
      · exact Or.inr (Or.inl rfl)
      · exact Or.inr (Or.inr (Or.inl rfl))
    | draw => exact Or.inr (Or.inr (Or.inr rfl))
  · intro m
    constructor
    · intro h
      cases m with
      | X => exact (evaluate_eq_winX b).mp h
      | O => exact ((evaluate_eq_winO b).mp h).2
    · intro h
      cases m with
      | X => exact (evaluate_eq_winX b).mpr h
      | O =>
        have hX : hasLine .X b = false := by
          rcases reachB_not_both b hb with hXf | hOf
          · exact hXf
          · rw [h] at hOf; exact absurd hOf (by simp)
        exact (evaluate_eq_winO b).mpr ⟨hX, h⟩
  · rw [evaluate_eq_draw]
    constructor
    · rintro ⟨h1, h2, h3⟩
      exact ⟨h3, fun m => by cases m <;> assumption⟩
    · rintro ⟨h1, h2⟩
      exact ⟨h2 .X, h2 .O, h1⟩
  · rw [evaluate_eq_inProgress]
    constructor
    · rintro ⟨h1, h2, h3⟩
      exact ⟨h3, fun m => by cases m <;> assumption⟩
    · rintro ⟨h1, h2⟩
      exact ⟨h2 .X, h2 .O, h1⟩
  · rintro ⟨hd, m, hw⟩
    rw [hd] at hw
    exact Outcome.noConfusion hw

theorem C4_witness :
    (evaluate emptyBoard = .inProgress ∨ evaluate emptyBoard = .win .X ∨
      evaluate emptyBoard = .win .O ∨ evaluate emptyBoard = .draw) ∧
    (∀ m, evaluate emptyBoard = .win m ↔ hasLine m emptyBoard = true) ∧
    (evaluate emptyBoard = .draw ↔
      isFull emptyBoard = true ∧ ∀ m, hasLine m emptyBoard = false) ∧
    (evaluate emptyBoard = .inProgress ↔
      isFull emptyBoard = false ∧ ∀ m, hasLine m emptyBoard = false) ∧
    ¬(evaluate emptyBoard = .draw ∧ ∃ m, evaluate emptyBoard = .win m) :=
  C4_evaluate_partition emptyBoard ReachableB.empty

/-- C7: the board crosses the wire as a 9-element sequence in row-major cell
order 0–8, each cell one of the three literal symbols `.`, `X`, `O`, and the
client interprets it positionally under exactly that alphabet: reading
element `i` of the serialized board with the client's cell interpretation
recovers cell `i` of the board, and the whole round trip is the identity. -/
theorem C7_wire_format (b : Board) (hl : b.length = 9) :
    (serializeBoard b).length = 9 ∧
    (∀ i, i < 9 →
      ((serializeBoard b).getD i "" = "." ∨
        (serializeBoard b).getD i "" = "X" ∨
        (serializeBoard b).getD i "" = "O") ∧
      clientCellMark ((serializeBoard b).getD i "") = cellAt b i) ∧
    clientGrid (serializeBoard b) = b := by
  refine ⟨by simp [serializeBoard, hl], ?_, clientGrid_serializeBoard b⟩
  intro i hi
  have hgd := serializeBoard_getD b i (by omega)
  rw [hgd]
  exact ⟨cellSymbol_cases _, clientCellMark_cellSymbol _⟩

theorem C7_witness :
    (serializeBoard [some .X, none, some .O, none, none, none, none, none,
      none]).length = 9 ∧
    (∀ i, i < 9 →
      ((serializeBoard [some .X, none, some .O, none, none, none, none, none,
        none]).getD i "" = "." ∨
        (serializeBoard [some .X, none, some .O, none, none, none, none,
          none, none]).getD i "" = "X" ∨
        (serializeBoard [some .X, none, some .O, none, none, none, none,
          none, none]).getD i "" = "O") ∧
      clientCellMark ((serializeBoard [some .X, none, some .O, none, none,
        none, none, none, none]).getD i "") =
        cellAt [some .X, none, some .O, none, none, none, none, none, none]
          i) ∧
    clientGrid (serializeBoard [some .X, none, some .O, none, none, none,
      none, none, none]) =
      [some .X, none, some .O, none, none, none, none, none, none] :=
  C7_wire_format
    [some .X, none, some .O, none, none, none, none, none, none] (by decide)

/-- C8: the board engine rejects a move with `IllegalMove` exactly when the
cell is outside 0–8, already occupied, or the game is already terminal; and
the client's `onCellClick` guard (play allowed and target cell `"."`) means
a request sent from the rendered state of a reachable session always passes
`applyMove` — the `IllegalMove` branch is unreachable from the UI's request
stream. -/
theorem C8_illegal_move_guard :
    (∀ (b : Board) (cell : Nat) (m : Mark),
      applyMove b cell m = .error .IllegalMove ↔
        9 ≤ cell ∨ isE (cellAt b cell) = false ∨ evaluate b ≠ .inProgress) ∧
    (∀ (s : Session) (busy : Bool) (cell : Nat), SessionReachable s →
      clientSends s.status (serializeBoard s.board) busy cell = true →
      ∃ b1, applyMove s.board cell .X = .ok b1) := by
  refine ⟨applyMove_illegal_iff, ?_⟩
  intro s busy cell hreach hsend
  obtain ⟨hlen, hprog⟩ := sessionReachable_inv s hreach
  unfold clientSends at hsend
  simp only [Bool.and_eq_true, decide_eq_true_eq] at hsend
  obtain ⟨⟨hst, hbusy⟩, hdot⟩ := hsend
  have hc9 : cell < 9 := by
    by_contra hge
    have hslen : (serializeBoard s.board).length = 9 := by
      simp [serializeBoard, hlen]
    have hle : (serializeBoard s.board).length ≤ cell := by omega
    have : (serializeBoard s.board).getD cell "" = "" := by
      simp [List.getD_eq_getElem?_getD, List.getElem?_eq_none hle]
    rw [this] at hdot
    exact absurd hdot (by decide)
  rw [serializeBoard_getD s.board cell (by omega)] at hdot
  have hnone : cellAt s.board cell = none := (cellSymbol_eq_dot _).mp hdot
  have hemp : isE (cellAt s.board cell) = true := by rw [hnone]; rfl
  exact ⟨setCell s.board cell .X,
    (applyMove_ok_iff _ _ _ _).mpr ⟨hc9, hemp, hprog hst, rfl⟩⟩

theorem C8_witness :
    (applyMove emptyBoard 9 .X = .error .IllegalMove ↔
      9 ≤ 9 ∨ isE (cellAt emptyBoard 9) = false ∨
        evaluate emptyBoard ≠ .inProgress) ∧
    ∃ b1, applyMove createSession.board 4 .X = .ok b1 :=
  ⟨C8_illegal_move_guard.1 emptyBoard 9 .X,
    C8_illegal_move_guard.2 createSession false 4 SessionReachable.create
      (by decide)⟩

theorem rollDay_promos (st : EngineState) (day : Nat) :
    (rollDay st day).promos = st.promos := by
  unfold rollDay
  split <;> rfl

theorem rollDay_self (st : EngineState) (day : Nat) (h : st.curDay = day) :
    rollDay st day = st := by
  unfold rollDay
  rw [if_pos h]

theorem promosFor_rollDay (st : EngineState) (day sid : Nat) (r : Reason) :
    promosFor (rollDay st day) sid r = promosFor st sid r := by
  unfold promosFor
  rw [rollDay_promos]

/-- C6: calling `issue` twice for the same session and reason yields exactly
one promotional code — if the first call succeeds with code `pc`, the second
call fails with `AlreadyIssued` (rejected, not silently ignored), the stored
promos are unchanged by the failed call, and the session's code for that
reason is still exactly `pc`. -/
theorem C6_issue_twice (cfg : Settings) (st : EngineState) (sid : Nat)
    (r : Reason) (now day now2 day2 : Nat) (pc : PromoCode)
    (st1 : EngineState)
    (h1 : issue cfg st sid r now day = (.ok pc, st1)) :
    (issue cfg st1 sid r now2 day2).1 = .error .AlreadyIssued ∧
      (issue cfg st1 sid r now2 day2).2.promos = st1.promos ∧
      promosFor st1 sid r = [pc] ∧
      promosFor (issue cfg st1 sid r now2 day2).2 sid r = [pc] := by
  have hfor1 : promosFor st1 sid r = [pc] := by
    unfold issue at h1
    by_cases hdup : promosFor (rollDay st day) sid r ≠ []
    · rw [if_pos hdup] at h1
      simp at h1
    · rw [if_neg hdup] at h1
      by_cases hcap : 0 < cfg.promo_daily_limit ∧
          cfg.promo_daily_limit ≤ (rollDay st day).dayCount
      · rw [if_pos hcap] at h1
        simp at h1
      · rw [if_neg hcap] at h1
        simp only [Prod.mk.injEq, Except.ok.injEq] at h1
        obtain ⟨hpc, hst1⟩ := h1
        rw [← hst1]
        push_neg at hdup
        unfold promosFor
        simp only [List.filter_cons]
        rw [← hpc]
        simp only [decide_eq_true_eq]
        rw [if_pos (by trivial)]
        unfold promosFor at hdup
        rw [hdup]
  have hne : promosFor (rollDay st1 day2) sid r ≠ [] := by
    rw [promosFor_rollDay, hfor1]
    simp
  constructor
  · unfold issue
    rw [if_pos hne]
  constructor
  · unfold issue
    rw [if_pos hne]
    exact rollDay_promos st1 day2
  refine ⟨hfor1, ?_⟩
  unfold issue
  rw [if_pos hne]
  rw [promosFor_rollDay, hfor1]

theorem C6_witness :
    (issue ⟨24, 0⟩ ⟨[5], [⟨0, 100, 124, 5, .giftWin⟩], 1, 1, 1⟩ 5 .giftWin
      200 2).1 = .error .AlreadyIssued ∧
    (issue ⟨24, 0⟩ ⟨[5], [⟨0, 100, 124, 5, .giftWin⟩], 1, 1, 1⟩ 5 .giftWin
      200 2).2.promos = [⟨0, 100, 124, 5, .giftWin⟩] ∧
    promosFor ⟨[5], [⟨0, 100, 124, 5, .giftWin⟩], 1, 1, 1⟩ 5 .giftWin =
      [⟨0, 100, 124, 5, .giftWin⟩] ∧
    promosFor (issue ⟨24, 0⟩ ⟨[5], [⟨0, 100, 124, 5, .giftWin⟩], 1, 1, 1⟩ 5
      .giftWin 200 2).2 5 .giftWin = [⟨0, 100, 124, 5, .giftWin⟩] :=
  C6_issue_twice ⟨24, 0⟩ ⟨[5], [], 0, 0, 1⟩ 5 .giftWin 100 1 200 2
    ⟨0, 100, 124, 5, .giftWin⟩ ⟨[5], [⟨0, 100, 124, 5, .giftWin⟩], 1, 1, 1⟩
    rfl

theorem promosFor_issue_other (cfg : Settings) (st : EngineState)
    (sid : Nat) (r : Reason) (now day a : Nat) (b : Reason)
    (hne : (a, b) ≠ (sid, r)) :
    promosFor (issue cfg st sid r now day).2 a b =
      promosFor (rollDay st day) a b := by
  unfold issue
  by_cases hdup : promosFor (rollDay st day) sid r ≠ []
  · rw [if_pos hdup]
  · rw [if_neg hdup]
    by_cases hcap : 0 < cfg.promo_daily_limit ∧
        cfg.promo_daily_limit ≤ (rollDay st day).dayCount
    · rw [if_pos hcap]
    · rw [if_neg hcap]
      unfold promosFor
      simp only [List.filter_cons]
      rw [if_neg ?_]
      intro hcond
      simp only [decide_eq_true_eq] at hcond
      exact hne (by rw [← hcond.1, ← hcond.2])

theorem runIssues_cap (cfg : Settings) (N : Nat)
    (hN : cfg.promo_daily_limit = N) (hNpos : 0 < N) (now day : Nat) :
    ∀ (reqs : List (Nat × Reason)) (st : EngineState),
      st.curDay = day → st.dayCount ≤ N →
      (∀ q ∈ reqs, promosFor st q.1 q.2 = []) →
      reqs.Pairwise (· ≠ ·) →
      (∀ i, i < reqs.length →
        (st.dayCount + i < N →
          isOkE ((runIssues cfg now day st reqs).1.getD i
            (.error .NoLegalMove)) = true) ∧
        (N ≤ st.dayCount + i →
          (runIssues cfg now day st reqs).1.getD i (.error .NoLegalMove) =
            .error .DailyLimitExceeded)) ∧
      (runIssues cfg now day st reqs).2.dayCount =
        min (st.dayCount + reqs.length) N := by
  intro reqs
  induction reqs with
  | nil =>
    intro st hday hle hfresh hpw
    simp only [runIssues]
    refine ⟨fun i hi => by simp at hi, ?_⟩
    simp
    omega
  | cons q qs ih =>
    intro st hday hle hfresh hpw
    have hroll : rollDay st day = st := rollDay_self st day hday
    have hfq : promosFor st q.1 q.2 = [] := hfresh q (List.mem_cons_self q qs)
    have hqtail : ∀ q1 ∈ qs, q ≠ q1 := (List.pairwise_cons.mp hpw).1
    have hpwtail : qs.Pairwise (· ≠ ·) := (List.pairwise_cons.mp hpw).2
    by_cases hcap : N ≤ st.dayCount
    · -- cap already reached: this call and every later one fails
      have heq : st.dayCount = N := by omega
      have hissue : issue cfg st q.1 q.2 now day = (.error .DailyLimitExceeded, st) := by
        unfold issue
        rw [hroll, if_neg (by rw [hfq]; simp), if_pos (by rw [hN]; omega)]
      have hihtail := ih st hday hle
        (fun q1 hq1 => hfresh q1 (List.mem_cons_of_mem q hq1)) hpwtail
      constructor
      · intro i hi
        cases i with
        | zero =>
          refine ⟨fun hlt => by omega, fun _ => ?_⟩
          simp only [runIssues, hissue, List.getD_cons_zero]
        | succ i =>
          have hitail := hihtail.1 i (by simp at hi; omega)
          refine ⟨fun hlt => by omega, fun _ => ?_⟩
          simp only [runIssues, hissue, List.getD_cons_succ]
          exact hitail.2 (by omega)
      · simp only [runIssues, hissue]
        rw [hihtail.2]
        simp
        omega
    · -- below the cap: this call succeeds
      push_neg at hcap
      have hissue : issue cfg st q.1 q.2 now day =
          (.ok ⟨st.nextCode, now, now + cfg.promo_ttl_hours, q.1, q.2⟩,
            { st with
              promos := ⟨st.nextCode, now, now + cfg.promo_ttl_hours, q.1,
                q.2⟩ :: st.promos,
              nextCode := st.nextCode + 1,
              dayCount := st.dayCount + 1 }) := by
        unfold issue
        rw [hroll, if_neg (by rw [hfq]; simp), if_neg (by rw [hN]; omega)]
      have hfresh1 : ∀ q1 ∈ qs,
          promosFor (issue cfg st q.1 q.2 now day).2 q1.1 q1.2 = [] := by
        intro q1 hq1
        rw [promosFor_issue_other cfg st q.1 q.2 now day q1.1 q1.2
          (by intro hcon; exact hqtail q1 hq1 (by
            obtain ⟨hq1a, hq1b⟩ := Prod.mk.injEq .. ▸ hcon
            exact Prod.ext hq1a.symm hq1b.symm ▸ rfl))]
        rw [hroll]
        exact hfresh q1 (List.mem_cons_of_mem q hq1)
      have hst1day : (issue cfg st q.1 q.2 now day).2.curDay = day := by
        rw [hissue]
        exact hday
      have hst1cnt : (issue cfg st q.1 q.2 now day).2.dayCount =
          st.dayCount + 1 := by
        rw [hissue]
      have hihtail := ih (issue cfg st q.1 q.2 now day).2 hst1day
        (by rw [hst1cnt]; omega) hfresh1 hpwtail
      constructor
      · intro i hi
        cases i with
        | zero =>
          refine ⟨fun _ => ?_, fun hge => by omega⟩
          simp only [runIssues, List.getD_cons_zero]
          rw [hissue]
          rfl
        | succ i =>
          have hitail := hihtail.1 i (by simp at hi; omega)
          rw [hst1cnt] at hitail
          refine ⟨fun hlt => ?_, fun hge => ?_⟩
          · simp only [runIssues, List.getD_cons_succ]
            exact hitail.1 (by omega)
          · simp only [runIssues, List.getD_cons_succ]
            exact hitail.2 (by omega)
      · simp only [runIssues]
        rw [hihtail.2, hst1cnt]
        simp
        omega

/-- C5: with `promo_daily_limit = N > 0`, in a same-day sequence of
qualifying issuances (distinct session/reason pairs, none already rewarded)
the first N calls succeed and every later call that day fails with
`DailyLimitExceeded`, and the daily counter never exceeds N after any prefix
of the run; with `promo_daily_limit = 0` the cap is disabled and `issue`
never fails with `DailyLimitExceeded`. -/
theorem C5_daily_limit (cfg : Settings) (N : Nat)
    (hN : cfg.promo_daily_limit = N) :
    (0 < N → ∀ (now day : Nat) (reqs : List (Nat × Reason))
      (st0 : EngineState),
      st0.curDay = day → st0.dayCount = 0 →
      (∀ q ∈ reqs, promosFor st0 q.1 q.2 = []) →
      reqs.Pairwise (· ≠ ·) →
      (∀ i, i < reqs.length →
        (i < N → isOkE ((runIssues cfg now day st0 reqs).1.getD i
          (.error .NoLegalMove)) = true) ∧
        (N ≤ i → (runIssues cfg now day st0 reqs).1.getD i
          (.error .NoLegalMove) = .error .DailyLimitExceeded)) ∧
      (∀ k, (runIssues cfg now day st0 (List.take k reqs)).2.dayCount ≤ N)) ∧
    (N = 0 → ∀ (st : EngineState) (sid : Nat) (r : Reason) (now day : Nat),
      (issue cfg st sid r now day).1 ≠ .error .DailyLimitExceeded) := by
  constructor
  · intro hNpos now day reqs st0 hday hcnt hfresh hpw
    have hmain := runIssues_cap cfg N hN hNpos now day reqs st0 hday
      (by omega) hfresh hpw
    constructor
    · intro i hi
      have hmi := hmain.1 i hi
      rw [hcnt] at hmi
      simpa using hmi
    · intro k
      have htake := runIssues_cap cfg N hN hNpos now day (List.take k reqs)
        st0 hday (by omega)
        (fun q hq => hfresh q (List.take_subset k reqs hq))
        (hpw.sublist (List.take_sublist k reqs))
      rw [htake.2]
      omega
  · intro hN0 st sid r now day
    unfold issue
    by_cases hdup : promosFor (rollDay st day) sid r ≠ []
    · rw [if_pos hdup]
      simp
    · rw [if_neg hdup]
      rw [if_neg (by rw [hN, hN0]; omega)]
      simp

theorem C5_witness :
    isOkE ((runIssues ⟨24, 2⟩ 100 1 ⟨[], [], 0, 0, 1⟩
      [(1, .gameWin), (2, .gameWin), (3, .gameWin)]).1.getD 0
        (.error .NoLegalMove)) = true ∧
    isOkE ((runIssues ⟨24, 2⟩ 100 1 ⟨[], [], 0, 0, 1⟩
      [(1, .gameWin), (2, .gameWin), (3, .gameWin)]).1.getD 1
        (.error .NoLegalMove)) = true ∧
    (runIssues ⟨24, 2⟩ 100 1 ⟨[], [], 0, 0, 1⟩
      [(1, .gameWin), (2, .gameWin), (3, .gameWin)]).1.getD 2
        (.error .NoLegalMove) = .error .DailyLimitExceeded ∧
    (runIssues ⟨24, 2⟩ 100 1 ⟨[], [], 0, 0, 1⟩
      (List.take 3 [(1, .gameWin), (2, .gameWin),
        (3, .gameWin)])).2.dayCount ≤ 2 ∧
    (issue ⟨24, 0⟩ ⟨[], [], 0, 0, 1⟩ 7 .giftWin 100 1).1 ≠
      .error .DailyLimitExceeded := by
  have h2 := C5_daily_limit ⟨24, 2⟩ 2 rfl
  have h0 := C5_daily_limit ⟨24, 0⟩ 0 rfl
  have hrun := h2.1 (by omega) 100 1
    [(1, .gameWin), (2, .gameWin), (3, .gameWin)] ⟨[], [], 0, 0, 1⟩
    rfl rfl (by intro q hq; fin_cases hq <;> rfl) (by decide)
  exact ⟨(hrun.1 0 (by decide)).1 (by decide),
    (hrun.1 1 (by decide)).1 (by decide),
    (hrun.1 2 (by decide)).2 (by decide), hrun.2 3,
    h0.2 rfl ⟨[], [], 0, 0, 1⟩ 7 .giftWin 100 1⟩




theorem cellClick_anatomy (st : ClientState) (cell : Nat) (resp : MoveResp)
    (giftResp : Option Nat) :
    (onCellClick cell resp giftResp st).pickups = st.pickups ∧
      (onCellClick cell resp giftResp st).collectedGifts =
        st.collectedGifts ∧
      (onCellClick cell resp giftResp st).promoRequests =
        st.promoRequests ∧
      (onCellClick cell resp giftResp st).sessionId = st.sessionId ∧
      (onCellClick cell resp giftResp st).nextSession = st.nextSession ∧
      (onCellClick cell resp giftResp st).giftCollectedInThisGame =
        st.giftCollectedInThisGame ∨
    (∃ g, st.gift = some g ∧ st.giftCollectedInThisGame = false ∧
      (onCellClick cell resp giftResp st).pickups =
        st.pickups ++ [(st.sessionId, g.type)] ∧
      (onCellClick cell resp giftResp st).collectedGifts =
        st.collectedGifts ++ [g.type] ∧
      (onCellClick cell resp giftResp st).giftCollectedInThisGame = true ∧
      (onCellClick cell resp giftResp st).sessionId = st.sessionId ∧
      (onCellClick cell resp giftResp st).nextSession = st.nextSession ∧
      ((onCellClick cell resp giftResp st).promoRequests =
          st.promoRequests ∧
          (onCellClick cell resp giftResp st).collectedGifts.length < 3 ∨
        (onCellClick cell resp giftResp st).promoRequests =
          st.promoRequests ++ [st.sessionId] ∧
          3 ≤ (onCellClick cell resp giftResp st).collectedGifts.length)) := by
  have main : ∀ gr : Option Nat,
      (onCellClick cell resp gr st).pickups = st.pickups ∧
        (onCellClick cell resp gr st).collectedGifts = st.collectedGifts ∧
        (onCellClick cell resp gr st).promoRequests = st.promoRequests ∧
        (onCellClick cell resp gr st).sessionId = st.sessionId ∧
        (onCellClick cell resp gr st).nextSession = st.nextSession ∧
        (onCellClick cell resp gr st).giftCollectedInThisGame =
          st.giftCollectedInThisGame ∨
      (∃ g, st.gift = some g ∧ st.giftCollectedInThisGame = false ∧
        (onCellClick cell resp gr st).pickups =
          st.pickups ++ [(st.sessionId, g.type)] ∧
        (onCellClick cell resp gr st).collectedGifts =
          st.collectedGifts ++ [g.type] ∧
        (onCellClick cell resp gr st).giftCollectedInThisGame = true ∧
        (onCellClick cell resp gr st).sessionId = st.sessionId ∧
        (onCellClick cell resp gr st).nextSession = st.nextSession ∧
        ((onCellClick cell resp gr st).promoRequests = st.promoRequests ∧
            (onCellClick cell resp gr st).collectedGifts.length < 3 ∨
          (onCellClick cell resp gr st).promoRequests =
            st.promoRequests ++ [st.sessionId] ∧
            3 ≤ (onCellClick cell resp gr st).collectedGifts.length)) := by
    intro gr
    cases gr with
    | none =>
      simp only [onCellClick]
      by_cases hst : st.status = .IN_PROGRESS
      case neg =>
        rw [if_pos (fun hh => hst hh)]
        exact Or.inl ⟨rfl, rfl, rfl, rfl, rfl, rfl⟩
      case pos =>
        rw [if_neg (fun hh => hh hst)]
        by_cases hdot : st.board.getD cell "" = "."
        case neg =>
          rw [if_pos (fun hh => hdot hh)]
          exact Or.inl ⟨rfl, rfl, rfl, rfl, rfl, rfl⟩
        case pos =>
          rw [if_neg (fun hh => hh hdot)]
          by_cases hwin : resp.status = .WIN ∧ resp.promo ≠ none ∧
              st.collectedGifts.length < 3 <;>
            [rw [if_pos hwin]; rw [if_neg hwin]] <;>
          · split
            case _ g heqg =>
              by_cases hpick : g.position = cell ∧
                  st.giftCollectedInThisGame = false
              case pos =>
                rw [if_pos hpick]
                by_cases h3 : 3 ≤ (st.collectedGifts ++ [g.type]).length
                case pos =>
                  rw [if_pos h3]
                  exact Or.inr ⟨g, heqg, hpick.2, rfl, rfl, rfl, rfl, rfl,
                    Or.inr ⟨rfl, h3⟩⟩
                case neg =>
                  rw [if_neg h3]
                  refine Or.inr ⟨g, heqg, hpick.2, rfl, rfl, rfl, rfl, rfl,
                    Or.inl ⟨rfl, ?_⟩⟩
                  show (st.collectedGifts ++ [g.type]).length < 3
                  omega
              case neg =>
                rw [if_neg hpick]
                exact Or.inl ⟨rfl, rfl, rfl, rfl, rfl, rfl⟩
            case _ heqg =>
              exact Or.inl ⟨rfl, rfl, rfl, rfl, rfl, rfl⟩
    | some code =>
      simp only [onCellClick]
      by_cases hst : st.status = .IN_PROGRESS
      case neg =>
        rw [if_pos (fun hh => hst hh)]
        exact Or.inl ⟨rfl, rfl, rfl, rfl, rfl, rfl⟩
      case pos =>
        rw [if_neg (fun hh => hh hst)]
        by_cases hdot : st.board.getD cell "" = "."
        case neg =>
          rw [if_pos (fun hh => hdot hh)]
          exact Or.inl ⟨rfl, rfl, rfl, rfl, rfl, rfl⟩
        case pos =>
          rw [if_neg (fun hh => hh hdot)]
          by_cases hwin : resp.status = .WIN ∧ resp.promo ≠ none ∧
              st.collectedGifts.length < 3 <;>
            [rw [if_pos hwin]; rw [if_neg hwin]] <;>
          · split
            case _ g heqg =>
              by_cases hpick : g.position = cell ∧
                  st.giftCollectedInThisGame = false
              case pos =>
                rw [if_pos hpick]
                by_cases h3 : 3 ≤ (st.collectedGifts ++ [g.type]).length
                case pos =>
                  rw [if_pos h3]
                  exact Or.inr ⟨g, heqg, hpick.2, rfl, rfl, rfl, rfl, rfl,
                    Or.inr ⟨rfl, h3⟩⟩
                case neg =>
                  rw [if_neg h3]
                  refine Or.inr ⟨g, heqg, hpick.2, rfl, rfl, rfl, rfl, rfl,
                    Or.inl ⟨rfl, ?_⟩⟩
                  show (st.collectedGifts ++ [g.type]).length < 3
                  omega
              case neg =>
                rw [if_neg hpick]
                exact Or.inl ⟨rfl, rfl, rfl, rfl, rfl, rfl⟩
            case _ heqg =>
              exact Or.inl ⟨rfl, rfl, rfl, rfl, rfl, rfl⟩
  exact main giftResp

theorem filter_sess_nil (l : List (Nat × GiftType)) (sid : Nat)
    (h : ∀ p ∈ l, p.1 ≠ sid) : l.filter (fun p => p.1 = sid) = [] := by
  induction l with
  | nil => rfl
  | cons a l ih =>
    rw [List.filter_cons]
    have ha := h a (List.mem_cons_self a l)
    rw [if_neg (by simpa using ha)]
    exact ih fun p hp => h p (List.mem_cons_of_mem a hp)

theorem startNewGame_inv (resetGifts ok : Bool) (r1 r2 : Nat)
    (st : ClientState) (hinv : ClientInv st) :
    ClientInv (startNewGame resetGifts ok r1 r2 st) := by
  obtain ⟨h1, h2, h5⟩ := hinv
  cases ok with
  | true =>
    refine ⟨?_, ?_, ?_⟩
    · show st.nextSession < st.nextSession + 1
      omega
    · intro p hp
      have hp' : p ∈ st.pickups := hp
      have := h2 p hp'
      show p.1 < st.nextSession + 1
      omega
    · show (if resetGifts then [] else st.collectedGifts).length ≤
        st.pickups.length
      cases resetGifts with
      | false => simpa using h5
      | true => simp
  | false =>
    refine ⟨h1, h2, ?_⟩
    show (if resetGifts then [] else st.collectedGifts).length ≤
      st.pickups.length
    cases resetGifts with
    | false => simpa using h5
    | true => simp

theorem clientStep_inv (st : ClientState) (ev : ClientEvent)
    (hinv : ClientInv st) : ClientInv (clientStep st ev) := by
  obtain ⟨h1, h2, h5⟩ := hinv
  cases ev with
  | newGameClick ok r1 r2 =>
    exact startNewGame_inv false ok r1 r2 st ⟨h1, h2, h5⟩
  | modalClose ok r1 r2 =>
    show ClientInv (closeModal ok r1 r2 st)
    unfold closeModal
    by_cases hmod : st.showWinModal = true
    · rw [if_pos hmod]
      exact startNewGame_inv _ ok r1 r2 st ⟨h1, h2, h5⟩
    · rw [if_neg hmod]
      exact ⟨h1, h2, h5⟩
  | cellClick cell resp giftResp =>
    show ClientInv (onCellClick cell resp giftResp st)
    rcases cellClick_anatomy st cell resp giftResp with
      ⟨hp, hc, hq, hs, hn, hf⟩ | ⟨g, hg, hflag, hp, hc, hf, hs, hn, hreq⟩
    · exact ⟨by rw [hs, hn]; exact h1, by rw [hp, hn]; exact h2,
        by rw [hc, hp]; exact h5⟩
    · refine ⟨by rw [hs, hn]; exact h1, ?_, ?_⟩
      · intro p hp1
        rw [hp] at hp1
        rw [hn]
        rcases List.mem_append.mp hp1 with hin | hin
        · exact h2 p hin
        · simp at hin
          rw [hin]
          simpa using h1
      · rw [hc, hp]
        simp only [List.length_append, List.length_cons, List.length_nil]
        omega

theorem runClient_inv (r1 r2 : Nat) (evs : List ClientEvent) :
    ClientInv (runClient r1 r2 evs) := by
  have hgen : ∀ (l : List ClientEvent) (st : ClientState), ClientInv st →
      ClientInv (l.foldl clientStep st) := by
    intro l
    induction l with
    | nil => intro st h; exact h
    | cons e l ih =>
      intro st h
      exact ih (clientStep st e) (clientStep_inv st e h)
  apply hgen
  refine ⟨?_, ?_, ?_⟩
  · show (0 : Nat) < 1
    omega
  · intro p hp
    simp [initClient, startNewGame] at hp
  · show (0 : Nat) ≤ 0
    omega

/-- Along cell clicks alone — `startNewGame` is what begins a new round and
resets `giftCollectedInThisGame` — the pickup log grows by at most one
entry, and not at all once the flag is set: the count of logged pickups plus
a credit of one while the flag is clear never increases. -/
theorem cellClicks_pickup_cap :
    ∀ (evs : List ClientEvent) (st : ClientState),
      evs.all isCellClick = true →
      (evs.foldl clientStep st).pickups.length +
          (if (evs.foldl clientStep st).giftCollectedInThisGame = false
            then 1 else 0) ≤
        st.pickups.length +
          (if st.giftCollectedInThisGame = false then 1 else 0) := by
  intro evs
  induction evs with
  | nil =>
    intro st _
    exact Nat.le_refl _
  | cons e evs ih =>
    intro st hall
    rw [List.all_cons, Bool.and_eq_true] at hall
    have hstep : (clientStep st e).pickups.length +
        (if (clientStep st e).giftCollectedInThisGame = false
          then 1 else 0) ≤
        st.pickups.length +
          (if st.giftCollectedInThisGame = false then 1 else 0) := by
      cases e with
      | newGameClick ok r1 r2 => exact absurd hall.1 (by simp [isCellClick])
      | modalClose ok r1 r2 => exact absurd hall.1 (by simp [isCellClick])
      | cellClick cell resp giftResp =>
        simp only [clientStep]
        rcases cellClick_anatomy st cell resp giftResp with
          ⟨hp, hc, hq, hs, hn, hf⟩ | ⟨g, hg, hflag, hp, hc, hf, hs, hn, hreq⟩
        · simp only [hp, hf]
          exact Nat.le_refl _
        · simp only [hp, hf, hflag, List.length_append, List.length_cons,
            List.length_nil]
          rw [if_neg (by simp)]
          simp only [if_pos trivial]
          omega
    have hrest := ih (clientStep st e) hall.2
    rw [List.foldl_cons]
    exact Nat.le_trans hrest hstep

/-- Exhibit of the `startNewGame` failure path: a failed `newGame` keeps the
old session while resetting the per-game flag and regenerating the gift, so
this concrete run logs two gift pickups in the same server session 0 — the
first in the mounted round, the second in the round begun by the failed
new-game request. -/
theorem failed_newGame_two_pickups :
    ((runClient 4 0
      [.cellClick 4 ⟨.IN_PROGRESS, List.replicate 9 ".", none⟩ none,
       .newGameClick false 4 0,
       .cellClick 4 ⟨.IN_PROGRESS, List.replicate 9 ".", none⟩
         none]).pickups.filter (fun p => p.1 = 0)).length = 2 := by
  decide

/-- C9: `generateGift` never returns null — for random draws in the ranges
`Math.floor(Math.random() * 9)` and `Math.floor(Math.random() * 6)` produce,
it always returns an object whose position is an integer in the range 0–8
and whose type is one of the six values flower, jewelry, gift, star, heart,
sparkles. -/
theorem C9_generateGift_total (r1 r2 : Nat) (h1 : r1 < 9) (h2 : r2 < 6) :
    ∃ g, generateGift r1 r2 = some g ∧ g.position < 9 ∧
      g.type ∈ ([.flower, .jewelry, .gift, .star, .heart, .sparkles] :
        List GiftType) := by
  refine ⟨⟨r1, giftTypes.getD r2 .flower⟩, rfl, h1, ?_⟩
  interval_cases r2 <;> simp [giftTypes]

theorem C9_witness :
    ∃ g, generateGift 3 4 = some g ∧ g.position < 9 ∧
      g.type ∈ ([.flower, .jewelry, .gift, .star, .heart, .sparkles] :
        List GiftType) :=
  C9_generateGift_total 3 4 (by decide) (by decide)

/-- C10: within one game round at most one gift is collected — along cell
clicks alone (no `startNewGame` beginning a new round) the pickup log grows
by at most one entry, and by none once `giftCollectedInThisGame` is set;
once the flag is set `onCellClick` changes neither the collection nor the
pickup log; only `startNewGame` (a new round, whether or not its `newGame`
request succeeds) resets the flag; and along any step the collection is
either unchanged, extended by exactly one gift, or cleared — the clearing
happening only when the win modal closes after a three-gift win.  Collected
gifts therefore persist across game rounds and server sessions until a gift
win. -/
theorem C10_gift_persistence :
    (∀ (st : ClientState) (evs : List ClientEvent),
      evs.all isCellClick = true →
      (evs.foldl clientStep st).pickups.length ≤
        st.pickups.length +
          (if st.giftCollectedInThisGame = false then 1 else 0)) ∧
    (∀ (st : ClientState) (cell : Nat) (resp : MoveResp)
        (giftResp : Option Nat),
      st.giftCollectedInThisGame = true →
      (onCellClick cell resp giftResp st).collectedGifts =
        st.collectedGifts ∧
      (onCellClick cell resp giftResp st).pickups = st.pickups) ∧
    (∀ (resetGifts ok : Bool) (r1 r2 : Nat) (st : ClientState),
      (startNewGame resetGifts ok r1 r2 st).giftCollectedInThisGame =
        false) ∧
    (∀ (st : ClientState) (ev : ClientEvent),
      (clientStep st ev).collectedGifts = st.collectedGifts ∨
      (∃ t, (clientStep st ev).collectedGifts = st.collectedGifts ++ [t]) ∨
      ((clientStep st ev).collectedGifts = [] ∧
        (∃ ok r1 r2, ev = .modalClose ok r1 r2) ∧ st.showWinModal = true ∧
        3 ≤ st.collectedGifts.length)) := by
  refine ⟨?_, ?_, ?_, ?_⟩
  · intro st evs hall
    exact Nat.le_trans (Nat.le_add_right _ _)
      (cellClicks_pickup_cap evs st hall)
  · intro st cell resp giftResp hflag
    rcases cellClick_anatomy st cell resp giftResp with
      ⟨hp, hc, _⟩ | ⟨g, hg, hflagf, _⟩
    · exact ⟨hc, hp⟩
    · rw [hflag] at hflagf
      exact absurd hflagf (by simp)
  · intro resetGifts ok r1 r2 st
    cases ok <;> rfl
  · intro st ev
    cases ev with
    | newGameClick ok r1 r2 =>
      left
      cases ok <;> rfl
    | cellClick cell resp giftResp =>
      rcases cellClick_anatomy st cell resp giftResp with
        ⟨hp, hc, _⟩ | ⟨g, hg, hflagf, hp, hc, _⟩
      · exact Or.inl hc
      · exact Or.inr (Or.inl ⟨g.type, hc⟩)
    | modalClose ok r1 r2 =>
      simp only [clientStep]
      unfold closeModal
      by_cases hmod : st.showWinModal = true
      · rw [if_pos hmod]
        by_cases h3 : 3 ≤ st.collectedGifts.length
        · refine Or.inr (Or.inr ⟨?_, ⟨ok, r1, r2, rfl⟩, hmod, h3⟩)
          cases ok with
          | true =>
            show (if decide (3 ≤ st.collectedGifts.length) = true then
              ([] : List GiftType) else st.collectedGifts) = []
            rw [if_pos (by simpa using h3)]
          | false =>
            show (if decide (3 ≤ st.collectedGifts.length) = true then
              ([] : List GiftType) else st.collectedGifts) = []
            rw [if_pos (by simpa using h3)]
        · left
          cases ok with
          | true =>
            show (if decide (3 ≤ st.collectedGifts.length) = true then
              ([] : List GiftType) else st.collectedGifts) = st.collectedGifts
            rw [if_neg (by simpa using h3)]
          | false =>
            show (if decide (3 ≤ st.collectedGifts.length) = true then
              ([] : List GiftType) else st.collectedGifts) = st.collectedGifts
            rw [if_neg (by simpa using h3)]
      · rw [if_neg hmod]
        exact Or.inl rfl

theorem C10_witness :
    (((([.cellClick 4 ⟨.IN_PROGRESS, List.replicate 9 ".", none⟩ none,
         .cellClick 4 ⟨.IN_PROGRESS, List.replicate 9 ".", none⟩ none] :
          List ClientEvent).foldl clientStep
      ⟨2, 1, .IN_PROGRESS, List.replicate 9 ".", none, some ⟨4, .flower⟩,
        [], [.flower], true, false, [(0, .flower)], []⟩).pickups.length ≤
      (ClientState.pickups ⟨2, 1, .IN_PROGRESS, List.replicate 9 ".", none,
        some ⟨4, .flower⟩, [], [.flower], true, false,
        [(0, .flower)], []⟩).length +
        (if (ClientState.giftCollectedInThisGame ⟨2, 1, .IN_PROGRESS,
            List.replicate 9 ".", none, some ⟨4, .flower⟩, [], [.flower],
            true, false, [(0, .flower)], []⟩) = false
          then 1 else 0))) ∧
    (onCellClick 4 ⟨.IN_PROGRESS, List.replicate 9 ".", none⟩ none
      ⟨2, 1, .IN_PROGRESS, List.replicate 9 ".", none, some ⟨4, .flower⟩,
        [], [.flower], true, false, [(0, .flower)], []⟩).collectedGifts =
      ClientState.collectedGifts ⟨2, 1, .IN_PROGRESS, List.replicate 9 ".",
        none, some ⟨4, .flower⟩, [], [.flower], true, false,
        [(0, .flower)], []⟩ ∧
    (onCellClick 4 ⟨.IN_PROGRESS, List.replicate 9 ".", none⟩ none
      ⟨2, 1, .IN_PROGRESS, List.replicate 9 ".", none, some ⟨4, .flower⟩,
        [], [.flower], true, false, [(0, .flower)], []⟩).pickups =
      ClientState.pickups ⟨2, 1, .IN_PROGRESS, List.replicate 9 ".", none,
        some ⟨4, .flower⟩, [], [.flower], true, false,
        [(0, .flower)], []⟩ :=
  ⟨C10_gift_persistence.1
    ⟨2, 1, .IN_PROGRESS, List.replicate 9 ".", none, some ⟨4, .flower⟩,
      [], [.flower], true, false, [(0, .flower)], []⟩
    [.cellClick 4 ⟨.IN_PROGRESS, List.replicate 9 ".", none⟩ none,
     .cellClick 4 ⟨.IN_PROGRESS, List.replicate 9 ".", none⟩ none]
    (by decide),
  C10_gift_persistence.2.1
    ⟨2, 1, .IN_PROGRESS, List.replicate 9 ".", none, some ⟨4, .flower⟩,
      [], [.flower], true, false, [(0, .flower)], []⟩
    4 ⟨.IN_PROGRESS, List.replicate 9 ".", none⟩ none rfl⟩

/-- C1 counterexample: a concrete client run in which the gift-promo request
is made for session 2 although only one of the three gift pickups happened
in that session — the three pickups happened in three different sessions
(one per game round), so "three gift pickups that all occurred in that same
session" is false of the code.  The run: the mounted game (session 0) picks
up the gift under cell 4, a new game starts (session 1) and picks up its
gift, a new game starts again (session 2) and picks up its gift, reaching
three collected gifts and firing `getGiftPromo` for session 2. -/
theorem C1_counterexample :
    2 ∈ (runClient 4 0
      [.cellClick 4 ⟨.IN_PROGRESS, List.replicate 9 ".", none⟩ none,
       .newGameClick true 4 0,
       .cellClick 4 ⟨.IN_PROGRESS, List.replicate 9 ".", none⟩ none,
       .newGameClick true 4 0,
       .cellClick 4 ⟨.IN_PROGRESS, List.replicate 9 ".", none⟩
         (some 7)]).promoRequests ∧
    ¬(3 ≤ ((runClient 4 0
      [.cellClick 4 ⟨.IN_PROGRESS, List.replicate 9 ".", none⟩ none,
       .newGameClick true 4 0,
       .cellClick 4 ⟨.IN_PROGRESS, List.replicate 9 ".", none⟩ none,
       .newGameClick true 4 0,
       .cellClick 4 ⟨.IN_PROGRESS, List.replicate 9 ".", none⟩
         (some 7)]).pickups.filter (fun p => p.1 = 2)).length) := by
  decide

/-- C1 (amended): the gift-promo request is made only when a pickup brings
the accumulated collection — gathered across game rounds — to three or more
gifts, and it references the session current at that pickup; the engine
validates the session exists (`InvalidSession` otherwise) and rejects a
session already gift-rewarded (`AlreadyIssued`). -/
theorem C1_gift_promo_flow :
    (∀ (st : ClientState) (ev : ClientEvent),
      (clientStep st ev).promoRequests = st.promoRequests ∨
      ((clientStep st ev).promoRequests =
        st.promoRequests ++ [st.sessionId] ∧
        3 ≤ (clientStep st ev).collectedGifts.length)) ∧
    (∀ (r1 r2 : Nat) (evs : List ClientEvent) (ev : ClientEvent),
      (clientStep (runClient r1 r2 evs) ev).promoRequests ≠
        (runClient r1 r2 evs).promoRequests →
      (clientStep (runClient r1 r2 evs) ev).promoRequests =
        (runClient r1 r2 evs).promoRequests ++
          [(runClient r1 r2 evs).sessionId] ∧
      3 ≤ (clientStep (runClient r1 r2 evs) ev).collectedGifts.length ∧
      3 ≤ (clientStep (runClient r1 r2 evs) ev).pickups.length) ∧
    (∀ (cfg : Settings) (st : EngineState) (sid now day : Nat),
      (sid ∉ st.sessions →
        giftPromo cfg st sid now day = (.error .InvalidSession, st)) ∧
      (sid ∈ st.sessions → promosFor (rollDay st day) sid .giftWin ≠ [] →
        (giftPromo cfg st sid now day).1 = .error .AlreadyIssued)) := by
  have hstep : ∀ (st : ClientState) (ev : ClientEvent),
      (clientStep st ev).promoRequests = st.promoRequests ∨
      ((clientStep st ev).promoRequests =
        st.promoRequests ++ [st.sessionId] ∧
        3 ≤ (clientStep st ev).collectedGifts.length) := by
    intro st ev
    cases ev with
    | newGameClick ok r1 r2 =>
      left
      cases ok <;> rfl
    | modalClose ok r1 r2 =>
      simp only [clientStep]
      unfold closeModal
      by_cases hmod : st.showWinModal = true
      · rw [if_pos hmod]
        left
        cases ok <;> rfl
      · rw [if_neg hmod]
        exact Or.inl rfl
    | cellClick cell resp giftResp =>
      rcases cellClick_anatomy st cell resp giftResp with
        ⟨hp, hc, hq, _⟩ | ⟨g, hg, hflagf, hp, hc, hf, hs, hn, hreq⟩
      · exact Or.inl hq
      · rcases hreq with ⟨hq, _⟩ | ⟨hq, h3⟩
        · exact Or.inl hq
        · exact Or.inr ⟨hq, h3⟩
  refine ⟨hstep, ?_, ?_⟩
  · intro r1 r2 evs ev hneq
    rcases hstep (runClient r1 r2 evs) ev with hsame | ⟨happ, h3⟩
    · exact absurd hsame hneq
    · refine ⟨happ, h3, ?_⟩
      have hinv := clientStep_inv (runClient r1 r2 evs) ev
        (runClient_inv r1 r2 evs)
      have h5 := hinv.2.2
      omega
  · intro cfg st sid now day
    constructor
    · intro hnotin
      unfold giftPromo
      rw [if_neg hnotin]
    · intro hin hdup
      unfold giftPromo
      rw [if_pos hin]
      unfold issue
      rw [if_pos hdup]

theorem C1_witness :
    ((clientStep (runClient 4 0
        [.cellClick 4 ⟨.IN_PROGRESS, List.replicate 9 ".", none⟩ none,
         .newGameClick true 4 0,
         .cellClick 4 ⟨.IN_PROGRESS, List.replicate 9 ".", none⟩ none,
         .newGameClick true 4 0])
        (.cellClick 4 ⟨.IN_PROGRESS, List.replicate 9 ".", none⟩
          (some 7))).promoRequests =
      (runClient 4 0
        [.cellClick 4 ⟨.IN_PROGRESS, List.replicate 9 ".", none⟩ none,
         .newGameClick true 4 0,
         .cellClick 4 ⟨.IN_PROGRESS, List.replicate 9 ".", none⟩ none,
         .newGameClick true 4 0]).promoRequests ++
        [(runClient 4 0
          [.cellClick 4 ⟨.IN_PROGRESS, List.replicate 9 ".", none⟩ none,
           .newGameClick true 4 0,
           .cellClick 4 ⟨.IN_PROGRESS, List.replicate 9 ".", none⟩ none,
           .newGameClick true 4 0]).sessionId] ∧
      3 ≤ (clientStep (runClient 4 0
        [.cellClick 4 ⟨.IN_PROGRESS, List.replicate 9 ".", none⟩ none,
         .newGameClick true 4 0,
         .cellClick 4 ⟨.IN_PROGRESS, List.replicate 9 ".", none⟩ none,
         .newGameClick true 4 0])
        (.cellClick 4 ⟨.IN_PROGRESS, List.replicate 9 ".", none⟩
          (some 7))).collectedGifts.length ∧
      3 ≤ (clientStep (runClient 4 0
        [.cellClick 4 ⟨.IN_PROGRESS, List.replicate 9 ".", none⟩ none,
         .newGameClick true 4 0,
         .cellClick 4 ⟨.IN_PROGRESS, List.replicate 9 ".", none⟩ none,
         .newGameClick true 4 0])
        (.cellClick 4 ⟨.IN_PROGRESS, List.replicate 9 ".", none⟩
          (some 7))).pickups.length) ∧
    giftPromo ⟨24, 5⟩ ⟨[], [], 0, 0, 1⟩ 5 100 1 =
      (.error .InvalidSession, ⟨[], [], 0, 0, 1⟩) ∧
    (giftPromo ⟨24, 5⟩ ⟨[5], [⟨0, 100, 124, 5, .giftWin⟩], 1, 1, 1⟩ 5
      200 1).1 = .error .AlreadyIssued :=
  ⟨C1_gift_promo_flow.2.1 4 0
      [.cellClick 4 ⟨.IN_PROGRESS, List.replicate 9 ".", none⟩ none,
       .newGameClick true 4 0,
       .cellClick 4 ⟨.IN_PROGRESS, List.replicate 9 ".", none⟩ none,
       .newGameClick true 4 0]
      (.cellClick 4 ⟨.IN_PROGRESS, List.replicate 9 ".", none⟩ (some 7))
      (by decide),
    (C1_gift_promo_flow.2.2 ⟨24, 5⟩ ⟨[], [], 0, 0, 1⟩ 5 100 1).1
      (by decide),
    (C1_gift_promo_flow.2.2 ⟨24, 5⟩
      ⟨[5], [⟨0, 100, 124, 5, .giftWin⟩], 1, 1, 1⟩ 5 200 1).2 (by decide)
      (by decide)⟩

theorem maskOf_testBit (m : Mark) :
    ∀ (b : Board) (i : Nat), (maskOf m b).testBit i = isM m (cellAt b i) := by
  intro b
  induction b with
  | nil =>
    intro i
    simp [maskOf, cellAt, isM, Nat.zero_testBit]
  | cons c rest ih =>
    intro i
    cases i with
    | zero =>
      have hc0 : cellAt (c :: rest) 0 = c := rfl
      rw [hc0, maskOf, Nat.testBit_zero]
      cases him : isM m c
      · apply decide_eq_false
        show ¬((0 + 2 * maskOf m rest) % 2 = 1)
        omega
      · apply decide_eq_true
        show (1 + 2 * maskOf m rest) % 2 = 1
        omega
    | succ i =>
      have hcs : cellAt (c :: rest) (i + 1) = cellAt rest i := rfl
      rw [hcs, maskOf, Nat.testBit_add_one]
      have hdiv : ((if isM m c then 1 else 0) + 2 * maskOf m rest) / 2
          = maskOf m rest := by
        cases isM m c
        · show (0 + 2 * maskOf m rest) / 2 = maskOf m rest
          omega
        · show (1 + 2 * maskOf m rest) / 2 = maskOf m rest
          omega
      rw [hdiv, ih i]

theorem land_mask_iff (x M : Nat) :
    (x &&& M == M) = true ↔ ∀ n, M.testBit n = true → x.testBit n = true := by
  rw [beq_iff_eq]
  constructor
  · intro h n hn
    have h2 := congrArg (fun y => y.testBit n) h
    simp only [Nat.testBit_and, hn, Bool.and_true] at h2
    exact h2
  · intro h
    apply Nat.eq_of_testBit_eq
    intro n
    rw [Nat.testBit_and]
    cases hn : M.testBit n
    · simp
    · simp [h n hn]

theorem lineMask_testBit (i j k n : Nat) :
    (lineMask i j k).testBit n = true ↔ (i = n ∨ j = n ∨ k = n) := by
  simp only [lineMask, Nat.testBit_or, Nat.one_shiftLeft, Nat.testBit_two_pow,
    Bool.or_eq_true, decide_eq_true_eq]
  tauto

theorem lineFor_maskOf (m : Mark) (b : Board) (i j k : Nat) :
    (maskOf m b &&& lineMask i j k == lineMask i j k) = lineFor m b i j k := by
  rw [Bool.eq_iff_iff, land_mask_iff]
  simp only [lineFor, Bool.and_eq_true, maskOf_testBit]
  constructor
  · intro h
    exact ⟨⟨h i ((lineMask_testBit i j k i).mpr (Or.inl rfl)),
            h j ((lineMask_testBit i j k j).mpr (Or.inr (Or.inl rfl)))⟩,
            h k ((lineMask_testBit i j k k).mpr (Or.inr (Or.inr rfl)))⟩
  · rintro ⟨⟨hi, hj⟩, hk⟩ n hn
    rcases (lineMask_testBit i j k n).mp hn with h | h | h <;>
      subst h <;> assumption

theorem mWin_maskOf (m : Mark) (b : Board) : mWin (maskOf m b) = hasLine m b := by
  simp only [mWin, hasLine, lineFor_maskOf]

theorem isFull_iff (b : Board) :
    isFull b = true ↔ ∀ i, i < b.length → isE (cellAt b i) = false := by
  rw [isFull, List.all_eq_true]
  constructor
  · intro h i hi
    have h2 := h _ (List.getElem_mem hi)
    have hcell : cellAt b i = b[i] := by
      simp [cellAt, List.getD_eq_getElem?_getD, List.getElem?_eq_getElem hi]
    rw [hcell]
    simpa using h2
  · intro h x hx
    obtain ⟨i, hi, hieq⟩ := List.mem_iff_getElem.mp hx
    have hcell : cellAt b i = x := by
      simp [cellAt, List.getD_eq_getElem?_getD, List.getElem?_eq_getElem hi, hieq]
    have h2 := h i hi
    rw [hcell] at h2
    simp [h2]

theorem full_maskOf (b : Board) (hl : b.length = 9) :
    ((maskOf .X b ||| maskOf .O b) == 511) = isFull b := by
  rw [Bool.eq_iff_iff, beq_iff_eq, isFull_iff]
  have h511 : (511 : Nat) = 2 ^ 9 - 1 := by norm_num
  constructor
  · intro h i hi
    have hbit := congrArg (fun y => y.testBit i) h
    simp only [Nat.testBit_or, maskOf_testBit, h511,
      Nat.testBit_two_pow_sub_one] at hbit
    rw [decide_eq_true (show i < 9 by omega)] at hbit
    cases hc : cellAt b i with
    | none =>
      rw [hc] at hbit
      simp [isM] at hbit
    | some mm => simp [isE]
  · intro h
    rw [h511]
    apply Nat.eq_of_testBit_eq
    intro n
    simp only [Nat.testBit_or, maskOf_testBit, Nat.testBit_two_pow_sub_one]
    by_cases hn : n < 9
    · rw [decide_eq_true hn]
      have h2 := h n (by omega)
      cases hc : cellAt b n with
      | none =>
        rw [hc] at h2
        simp [isE] at h2
      | some mm => cases mm <;> simp [isM]
    · rw [decide_eq_false hn]
      have hc : cellAt b n = none := by
        simp [cellAt, List.getD_eq_getElem?_getD,
          List.getElem?_eq_none (show b.length ≤ n by omega)]
      rw [hc]
      simp [isM]

theorem emptiesM_maskOf (b : Board) :
    emptiesM (maskOf .X b) (maskOf .O b) = emptiesPref b := by
  unfold emptiesM emptiesPref
  apply List.filter_congr
  intro c _
  rw [Bool.eq_iff_iff, beq_iff_eq]
  have htb : (maskOf .X b ||| maskOf .O b).testBit c
      = (isM .X (cellAt b c) || isM .O (cellAt b c)) := by
    simp [Nat.testBit_or, maskOf_testBit]
  rw [Nat.testBit_to_div_mod] at htb
  rw [Nat.shiftRight_eq_div_pow, Nat.and_one_is_mod]
  constructor
  · intro h0
    cases hc : cellAt b c with
    | none => simp [isE]
    | some mm =>
      rw [hc] at htb
      exfalso
      have h1 : decide ((maskOf .X b ||| maskOf .O b) / 2 ^ c % 2 = 1)
          = true := by
        rw [htb]
        cases mm <;> simp [isM]
      simp only [decide_eq_true_eq] at h1
      omega
  · intro he
    have hc : cellAt b c = none := (isE_iff _).mp he
    rw [hc] at htb
    simp only [isM, Bool.or_self] at htb
    simp only [decide_eq_false_iff_not] at htb
    omega

theorem maskOf_setCell_same (m : Mark) (b : Board) (c : Nat)
    (hc : c < b.length) :
    maskOf m (setCell b c m) = maskOf m b ||| (1 <<< c) := by
  apply Nat.eq_of_testBit_eq
  intro n
  rw [maskOf_testBit, Nat.testBit_or, maskOf_testBit, Nat.one_shiftLeft]
  by_cases hn : c = n
  · subst hn
    rw [cellAt_set_self b c m hc, Nat.testBit_two_pow_self]
    cases m <;> simp [isM]
  · rw [cellAt_set_ne b c n m hn, Nat.testBit_two_pow_of_ne hn]
    simp

theorem maskOf_setCell_other (m mo : Mark) (b : Board) (c : Nat)
    (hmo : mo ≠ m) (hemp : isE (cellAt b c) = true) :
    maskOf mo (setCell b c m) = maskOf mo b := by
  apply Nat.eq_of_testBit_eq
  intro n
  rw [maskOf_testBit, maskOf_testBit]
  by_cases hn : c = n
  · subst hn
    have hnone : cellAt b c = none := (isE_iff _).mp hemp
    by_cases hlen : c < b.length
    · rw [cellAt_set_self b c m hlen, hnone]
      cases m <;> cases mo <;> simp_all [isM]
    · have hset : cellAt (setCell b c m) c = none := by
        simp [cellAt, setCell, List.getD_eq_getElem?_getD,
          List.getElem?_set_self', List.getElem?_eq_none (Nat.le_of_not_lt hlen)]
      rw [hset, hnone]
  · rw [cellAt_set_ne b c n m hn]

theorem safeM_safe : ∀ (f : Nat) (t : Mark) (b : Board), b.length = 9 →
    safeM f t (maskOf .X b) (maskOf .O b) = true → safe f t b = true := by
  intro f
  induction f with
  | zero =>
    intro t b hl h
    simp only [safeM, mWin_maskOf] at h
    simp only [safe]
    cases hev : evaluate b with
    | win m =>
      cases m with
      | X =>
        have hX := (evaluate_eq_winX b).mp hev
        rw [if_pos hX] at h
        exact h
      | O => rfl
    | draw => rfl
    | inProgress => rfl
  | succ f ih =>
    intro t b hl h
    simp only [safeM] at h
    rw [mWin_maskOf, mWin_maskOf, full_maskOf b hl, emptiesM_maskOf b] at h
    simp only [safe]
    cases hev : evaluate b with
    | win m =>
      cases m with
      | X =>
        have hX := (evaluate_eq_winX b).mp hev
        rw [if_pos hX] at h
        exact h
      | O => rfl
    | draw => rfl
    | inProgress =>
      obtain ⟨hX, hO, hF⟩ := (evaluate_eq_inProgress b).mp hev
      rw [if_neg (by simp [hX]), if_neg (by simp [hO]),
        if_neg (by simp [hF])] at h
      cases t with
      | X =>
        have h' : (emptiesPref b).all
            (fun c => safeM f .O (maskOf .X b ||| (1 <<< c)) (maskOf .O b))
            = true := h
        rw [List.all_eq_true] at h'
        show (emptiesPref b).all (fun c => safe f .O (setCell b c .X)) = true
        rw [List.all_eq_true]
        intro c hc
        have hcc := (mem_emptiesPref b c).mp hc
        have hXm : maskOf .X (setCell b c .X) = maskOf .X b ||| (1 <<< c) :=
          maskOf_setCell_same .X b c (by omega)
        have hOm : maskOf .O (setCell b c .X) = maskOf .O b :=
          maskOf_setCell_other .X .O b c (fun hh => nomatch hh) hcc.2
        apply ih .O (setCell b c .X) (by rw [length_setCell, hl])
        rw [hXm, hOm]
        exact h' c hc
      | O =>
        have h' : (emptiesPref b).any
            (fun c => safeM f .X (maskOf .X b) (maskOf .O b ||| (1 <<< c)))
            = true := h
        rw [List.any_eq_true] at h'
        obtain ⟨c, hc, hsafe⟩ := h'
        show (emptiesPref b).any (fun c => safe f .X (setCell b c .O)) = true
        rw [List.any_eq_true]
        refine ⟨c, hc, ?_⟩
        have hcc := (mem_emptiesPref b c).mp hc
        have hXm : maskOf .X (setCell b c .O) = maskOf .X b :=
          maskOf_setCell_other .O .X b c (fun hh => nomatch hh) hcc.2
        have hOm : maskOf .O (setCell b c .O) = maskOf .O b ||| (1 <<< c) :=
          maskOf_setCell_same .O b c (by omega)
        apply ih .X (setCell b c .O) (by rw [length_setCell, hl])
        rw [hXm, hOm]
        exact hsafe

theorem safeM_root : safeM 9 .X 0 0 = true := by decide

theorem safe_root : safe 9 .X emptyBoard = true := by
  have h0X : maskOf .X emptyBoard = 0 := rfl
  have h0O : maskOf .O emptyBoard = 0 := rfl
  apply safeM_safe 9 .X emptyBoard rfl
  rw [h0X, h0O]
  exact safeM_root

/-- C2: a session created with the optimal difficulty tier never reaches
status `WIN` for any sequence of player move requests from the empty board
(the optimal opponent never loses), and the optimal tier's move selection is
deterministic with ties among equally optimal moves broken by the fixed
preference order center > corners > edges: the selected cell is always the
first cell of the preference-ordered empty-cell list attaining the minimal
game value. -/
theorem C2_optimal_never_loses :
    (∀ moves : List Nat, (playMoves moves).status ≠ .WIN) ∧
    (∀ (b : Board) (cell : Nat), selectOptimal b = .ok cell →
      cell ∈ emptiesPref b ∧
      (∀ c ∈ emptiesPref b, childVal b cell ≤ childVal b c) ∧
      ∃ l1 l2, emptiesPref b = l1 ++ cell :: l2 ∧
        ∀ c ∈ l1, childVal b cell < childVal b c) :=
  ⟨playMoves_never_win (safe_sound 9 .X emptyBoard safe_root),
    selectOptimal_det⟩

theorem C2_witness :
    (playMoves [] : Session).status ≠ .WIN ∧
    (6 ∈ emptiesPref [some .X, some .O, some .X, some .O, some .X, some .O,
        none, none, none] ∧
      (∀ c ∈ emptiesPref [some .X, some .O, some .X, some .O, some .X,
          some .O, none, none, none],
        childVal [some .X, some .O, some .X, some .O, some .X, some .O,
          none, none, none] 6 ≤
        childVal [some .X, some .O, some .X, some .O, some .X, some .O,
          none, none, none] c) ∧
      ∃ l1 l2, emptiesPref [some .X, some .O, some .X, some .O, some .X,
          some .O, none, none, none] = l1 ++ 6 :: l2 ∧
        ∀ c ∈ l1, childVal [some .X, some .O, some .X, some .O, some .X,
          some .O, none, none, none] 6 <
          childVal [some .X, some .O, some .X, some .O, some .X, some .O,
            none, none, none] c) :=
  ⟨C2_optimal_never_loses.1 [],
    C2_optimal_never_loses.2
      [some .X, some .O, some .X, some .O, some .X, some .O, none, none,
        none] 6 rfl⟩
